import Mathlib

/-!
Verification of the node-lifecycle and resource-parsing core of dlrover
(`dlrover/python/common/node.py`) against its natural-language specification.

Strings are modelled as `List Char`.  Python `float` values that arise here
only ever hold exact decimal literals and results of exact arithmetic, so they
are modelled as `ℚ`; Python `int` is modelled as `ℤ`.  The tolerance of
Python's numeric constructors for surrounding whitespace and underscores is
not modelled.  `datetime.now()` is modelled as an explicit `now` parameter.
The constants module `dlrover.python.common.constants` is not part of the
sources, so `NodeStatus`, `NodeExitReason` and the OOM ceiling
`NodeResourceLimit.MAX_MEMORY` are modelled from the spec.
-/

/-- Shorthand turning a string literal into the `List Char` representation
used throughout this development. -/
def str (s : String) : List Char := s.data

/-- Is `c` a decimal digit (models `str.isdigit` for ASCII digits)? -/
def isDigitChar (c : Char) : Bool := 48 ≤ c.toNat && c.toNat ≤ 57

/-- The decimal digit character for `d < 10`. -/
def digitChar (d : ℕ) : Char :=
  match d with
  | 0 => '0' | 1 => '1' | 2 => '2' | 3 => '3' | 4 => '4'
  | 5 => '5' | 6 => '6' | 7 => '7' | 8 => '8' | _ => '9'

/-- Numeric value of a digit character. -/
def digitVal (c : Char) : ℕ := c.toNat - 48

/-- Python whitespace as stripped by `str.strip()`. -/
def isWS (c : Char) : Bool :=
  c = ' ' || c = '\t' || c = '\n' || c = '\r' || c.toNat = 11 || c.toNat = 12

/-- Decimal digit string of a natural number, most significant digit first
(the digit part of Python's `str` on an `int` or `float`). -/
def natDigits (n : ℕ) : List Char :=
  if n < 10 then [digitChar n]
  else natDigits (n / 10) ++ [digitChar (n % 10)]
termination_by n
decreasing_by exact Nat.div_lt_self (by omega) (by omega)

/-- Value of a digit string (used by the numeric parsers). -/
def digitsVal (l : List Char) : ℕ :=
  l.foldl (fun a c => a * 10 + digitVal c) 0

/-- Models Python `int(text)` on a decimal literal: optional sign followed by
at least one digit. -/
def parseInt (l : List Char) : Option ℤ :=
  match l with
  | '-' :: r => if r ≠ [] ∧ r.all isDigitChar then some (-(digitsVal r : ℤ)) else none
  | '+' :: r => if r ≠ [] ∧ r.all isDigitChar then some ((digitsVal r : ℤ)) else none
  | _ => if l ≠ [] ∧ l.all isDigitChar then some ((digitsVal l : ℤ)) else none

/-- Models Python `float(text)` on an unsigned decimal literal:
`digits`, `digits.`, `.digits` or `digits.digits` (at least one digit). -/
def parseUnsigned (l : List Char) : Option ℚ :=
  match l.dropWhile isDigitChar with
  | [] =>
      if l.takeWhile isDigitChar = [] then none
      else some ((digitsVal (l.takeWhile isDigitChar) : ℚ))
  | '.' :: fp =>
      if (l.takeWhile isDigitChar ≠ [] ∨ fp ≠ []) ∧ fp.all isDigitChar then
        some ((digitsVal (l.takeWhile isDigitChar) : ℚ) +
          (digitsVal fp : ℚ) / 10 ^ fp.length)
      else none
  | _ => none

/-- Models Python `float(text)` on a decimal literal with optional sign. -/
def parseNum (l : List Char) : Option ℚ :=
  match l with
  | '-' :: r => (parseUnsigned r).map (fun q => -q)
  | '+' :: r => parseUnsigned r
  | _ => parseUnsigned l

/-- The minimal number of decimal fraction digits needed to print `q` exactly:
the least `k ≤ d` with `d ∣ 10 ^ k`, where `d` is the reduced denominator.
`none` when the denominator is not of the form `2^a * 5^b`. -/
def decScale (d : ℕ) : Option ℕ :=
  (List.range (d + 1)).find? (fun k => 10 ^ k % d == 0)

/-- Digit layout of the decimal `m / 10^k` with exactly `k` fraction digits
(and the single `"0"` fraction digit Python prints for whole floats). -/
def renderScaled (m k : ℕ) : List Char :=
  if k = 0 then natDigits m ++ ['.', '0']
  else
    natDigits (m / 10 ^ k) ++ '.' ::
      (List.replicate (k - (natDigits (m % 10 ^ k)).length) '0' ++
        natDigits (m % 10 ^ k))

/-- Decimal rendering of a non-negative exact-decimal rational, with one
fractional digit minimum — the shape Python's `str` gives a float
(`str(5.0) = "5.0"`, `str(0.5) = "0.5"`). -/
def renderPosQ (q : ℚ) : List Char :=
  match decScale q.den with
  | some k => renderScaled (q.num.toNat * (10 ^ k / q.den)) k
  | none => ['0']

/-- Models Python `str` on a float holding an exact decimal value. -/
def renderNum (q : ℚ) : List Char :=
  if q < 0 then '-' :: renderPosQ (-q) else renderPosQ q

/-- Models Python `str` on an int. -/
def renderInt (n : ℤ) : List Char :=
  if n < 0 then '-' :: natDigits (-n).toNat else natDigits n.toNat

/-- Does `needle` occur at the head of `hay`? (helper for substring search) -/
def leadsWith : List Char → List Char → Bool
  | [], _ => true
  | _ :: _, [] => false
  | a :: as, b :: bs => a = b && leadsWith as bs

/-- Models the Python `in` operator on strings: contiguous substring. -/
def containsSub (needle : List Char) (hay : List Char) : Bool :=
  leadsWith needle hay ||
    match hay with
    | [] => false
    | _ :: t => containsSub needle t

/-- Models `text.split(sep)` for a single-character separator:
`"".split(",") = [""]`, empty pieces kept. -/
def splitOnChar (sep : Char) : List Char → List (List Char)
  | [] => [[]]
  | c :: rest =>
      if c = sep then [] :: splitOnChar sep rest
      else
        match splitOnChar sep rest with
        | [] => [[c]]
        | t :: ts => (c :: t) :: ts

/-- Models `text.strip()`: drop leading and trailing whitespace. -/
def pyStrip (l : List Char) : List Char :=
  ((l.dropWhile isWS).reverse.dropWhile isWS).reverse

/-- Models `value.split("=")[0]` and `value.split("=")[1]` on one token:
`none` when the token has no `=` (Python raises `IndexError`). -/
def tokenKV (t : List Char) : Option (List Char × List Char) :=
  match t.dropWhile (fun c => c ≠ '=') with
  | [] => none
  | _ :: r2 => some (t.takeWhile (fun c => c ≠ '='), r2.takeWhile (fun c => c ≠ '='))

/-- Models Python dict assignment `d[k] = v`: an existing key keeps its
insertion position but takes the new value; a new key is appended. -/
def dictInsert (d : List (List Char × List Char)) (k v : List Char) :
    List (List Char × List Char) :=
  match d with
  | [] => [(k, v)]
  | (k', v') :: rest =>
      if k' = k then (k', v) :: rest else (k', v') :: dictInsert rest k v

/-- Models Python dict lookup `d.get(k)` over the insertion-ordered entries. -/
def dictGet (d : List (List Char × List Char)) (k : List Char) : Option (List Char) :=
  match d with
  | [] => none
  | (k', v) :: rest => if k' = k then some v else dictGet rest k

/-- The token loop of `resource_str_to_node_resource`:
`for value in ...: resource[value.split("=")[0]] = value.split("=")[1]`. -/
def buildDict : List (List Char) → List (List Char × List Char) →
    Option (List (List Char × List Char))
  | [], d => some d
  | t :: ts, d =>
      match tokenKV t with
      | none => none
      | some kv => buildDict ts (dictInsert d kv.1 kv.2)

/-- The accelerator loop of `resource_str_to_node_resource`:
`for key, _ in resource.items(): if "nvidia.com" in key:
  gpu_type = key; gpu_num = int(resource[key])`.
`none` models the `ValueError` from `int` on a malformed count. -/
def gpuFold : List (List Char × List Char) → Option (List Char) × ℤ →
    Option (Option (List Char) × ℤ)
  | [], acc => some acc
  | (k, v) :: rest, acc =>
      if containsSub (str "nvidia.com") k then
        match parseInt v with
        | none => none
        | some n => gpuFold rest (some k, n)
      else gpuFold rest acc

/-- `NodeResource` of `node.py`: cpu cores, memory MB, accelerator type and
count, image and priority class. -/
structure NodeResource where
  cpu : ℚ
  memory : ℚ
  gpu_type : Option (List Char)
  gpu_num : ℤ
  image : List Char
  priority : List Char
deriving DecidableEq, Repr

/-- `NodeResource.__init__(cpu, memory, gpu_type=None, gpu_num=0)`:
no validation, `image` and `priority` start empty. -/
def NodeResource.new (cpu memory : ℚ) (gpu_type : Option (List Char)) (gpu_num : ℤ) :
    NodeResource :=
  ⟨cpu, memory, gpu_type, gpu_num, [], []⟩

/-- `NodeResource.to_resource_dict`: the wire mapping
`{"cpu": cpu, "memory": str(memory) + "Mi"}` plus the accelerator entry when
`gpu_num > 0`.  Values are rendered to their textual form via
`renderNum`/`renderInt`, modelling Python's `str`; a `None` key renders as
`"None"` as Python would print it. -/
def NodeResource.to_resource_dict (r : NodeResource) : List (List Char × List Char) :=
  if 0 < r.gpu_num then
    dictInsert (dictInsert (dictInsert [] (str "cpu") (renderNum r.cpu))
      (str "memory") (renderNum r.memory ++ str "Mi"))
      (r.gpu_type.getD (str "None")) (renderInt r.gpu_num)
  else
    dictInsert (dictInsert [] (str "cpu") (renderNum r.cpu))
      (str "memory") (renderNum r.memory ++ str "Mi")

/-- Glue for the spec's round-trip property `parse(toWireMap(parse(s)))`:
renders a wire mapping back into the textual `key=value[,key=value]*` form
that `resource_str_to_node_resource` consumes. -/
def joinComma : List (List Char) → List Char
  | [] => []
  | [x] => x
  | x :: xs => x ++ ',' :: joinComma xs

/-- See `joinComma`. -/
def dictToStr (d : List (List Char × List Char)) : List Char :=
  joinComma (d.map (fun e => e.1 ++ '=' :: e.2))

/-- `resource.get("memory", "0Mi")` of `resource_str_to_node_resource`. -/
def memoryValue (d : List (List Char × List Char)) : List Char :=
  (dictGet d (str "memory")).getD (str "0Mi")

/-- `resource.get("memory", "0Mi")[0:-2]`: the memory value with its final two
characters sliced off, whatever they are. -/
def memorySlice (d : List (List Char × List Char)) : List Char :=
  (memoryValue d).take ((memoryValue d).length - 2)

/-- `NodeResource.resource_str_to_node_resource`: parses
`"memory=100Mi,cpu=5"`-style text.  The input is `Option`al (`None` or a
string); a `none` result models an uncaught Python exception
(`IndexError`/`ValueError`) escaping the classmethod. -/
def NodeResource.resource_str_to_node_resource (resource_str : Option (List Char)) :
    Option NodeResource :=
  match resource_str with
  | none => some (NodeResource.new 0 0 none 0)
  | some s =>
    if s = [] then some (NodeResource.new 0 0 none 0)
    else
      match buildDict (splitOnChar ',' (pyStrip s)) [] with
      | none => none
      | some d =>
        match parseNum (memorySlice d),
            parseNum ((dictGet d (str "cpu")).getD (str "0")),
            gpuFold d (none, 0) with
        | some memory, some cpu, some g => some (NodeResource.new cpu memory g.1 g.2)
        | _, _, _ => none

/-- `NodeResource.convert_memory_to_mb`: reads the final two characters as the
unit and the rest as an integer; `Gi` multiplies by 1024, `Ki` divides by 1024
truncating toward zero (`int(value / 1024)`), anything else — including an
unrecognized suffix — returns the value unchanged.  `none` models the
`ValueError` from `int` on a non-integer prefix. -/
def NodeResource.convert_memory_to_mb (memory : List Char) : Option ℤ :=
  (parseInt (memory.take (memory.length - 2))).map (fun value =>
    if memory.drop (memory.length - 2) = str "Gi" then value * 1024
    else if memory.drop (memory.length - 2) = str "Ki" then Int.tdiv value 1024
    else value)

/-- `NodeGroupResource` of `node.py`. -/
structure NodeGroupResource where
  count : ℤ
  node_resource : NodeResource
  priority : Option (List Char)
deriving DecidableEq, Repr

/-- `NodeGroupResource.update(count, cpu, memory)`. -/
def NodeGroupResource.update (g : NodeGroupResource) (count : ℤ) (cpu memory : ℚ) :
    NodeGroupResource :=
  ⟨count, ⟨cpu, memory, g.node_resource.gpu_type, g.node_resource.gpu_num,
    g.node_resource.image, g.node_resource.priority⟩, g.priority⟩

/-- `NodeGroupResource.new_empty()`. -/
def NodeGroupResource.new_empty : NodeGroupResource :=
  ⟨0, NodeResource.new 0 0 none 0, none⟩

/-- Modelled from the spec: the node status enumeration of the constants
module `dlrover.python.common.constants` (not under the sources), §3:
`{INITIAL, PENDING, RUNNING, SUCCEEDED, FAILED, DELETED}`. -/
inductive NodeStatus where
  | INITIAL | PENDING | RUNNING | SUCCEEDED | FAILED | DELETED
deriving DecidableEq, Repr

/-- Modelled from the spec: the node exit-reason enumeration of the constants
module (not under the sources); the spec names `FATAL_ERROR` as the
non-retriable class and mentions OOM kills and other retriable exits. -/
inductive NodeExitReason where
  | FATAL_ERROR | OOM | KILLED
deriving DecidableEq, Repr

/-- `Node` of `node.py`. -/
structure Node where
  type : List Char
  id : ℤ
  name : Option (List Char)
  status : NodeStatus
  start_time : Option ℕ
  task_index : ℤ
  relaunch_count : ℤ
  critical : Bool
  max_relaunch_count : ℤ
  relaunchable : Bool
  service_addr : Option (List Char)
  create_time : ℕ
  finish_time : ℕ
  is_recovered_oom : Bool
  is_released : Bool
  exit_reason : Option NodeExitReason
  config_resource : NodeResource
  used_resource : NodeResource
deriving DecidableEq, Repr

/-- `Node.__init__`: `task_index` defaults to `node_id` when absent; both
timestamps are set to the same `datetime.now()`, modelled as the explicit
parameter `now`. -/
def Node.new (node_type : List Char) (node_id : ℤ) (config_resource : NodeResource)
    (name : Option (List Char)) (status : NodeStatus) (start_time : Option ℕ)
    (task_index : Option ℤ) (relaunch_count : ℤ) (critical : Bool)
    (max_relaunch_count : ℤ) (relaunchable : Bool)
    (service_addr : Option (List Char)) (now : ℕ) : Node :=
  ⟨node_type, node_id, name, status, start_time, task_index.getD node_id,
    relaunch_count, critical, max_relaunch_count, relaunchable, service_addr,
    now, now, false, false, none, config_resource, NodeResource.new 0 0 none 0⟩

/-- `Node.inc_relaunch_count`. -/
def Node.inc_relaunch_count (n : Node) : Node :=
  { n with relaunch_count := n.relaunch_count + 1 }

/-- `Node.update_info(name, start_time, create_time)`: each field is
overwritten only when the argument is not `None`. -/
def Node.update_info (n : Node) (name : Option (List Char))
    (start_time : Option ℕ) (create_time : Option ℕ) : Node :=
  { n with
    name := match name with | some v => some v | none => n.name
    start_time := match start_time with | some t => some t | none => n.start_time
    create_time := create_time.getD n.create_time }

/-- `Node.update_status(status)`: no-op on `None`, otherwise an unconditional
overwrite. -/
def Node.update_status (n : Node) (status : Option NodeStatus) : Node :=
  { n with status := status.getD n.status }

/-- `Node.update_resource_usage(cpu, memory)`: overwrites the observed
resource's cpu and memory. -/
def Node.update_resource_usage (n : Node) (cpu memory : ℚ) : Node :=
  { n with used_resource :=
      ⟨cpu, memory, n.used_resource.gpu_type, n.used_resource.gpu_num,
        n.used_resource.image, n.used_resource.priority⟩ }

/-- `Node.get_relaunch_node_info(new_id)`: a deep copy with `id := new_id`,
`name := None`, `status := INITIAL`, `start_time := None`,
`is_released := False`, `relaunchable := True`; the original is untouched
(the embedding is functional, matching `copy.deepcopy`). -/
def Node.get_relaunch_node_info (n : Node) (new_id : ℤ) : Node :=
  { n with
    id := new_id
    name := none
    status := NodeStatus.INITIAL
    start_time := none
    is_released := false
    relaunchable := true }

/-- `Node.is_unrecoverable_failure`: the retry budget, fatal exit reason and
OOM-ceiling disjunction.  `NodeResourceLimit.MAX_MEMORY` lives in the absent
constants module; modelled from the spec as the parameter `maxMemory`
(the configured OOM ceiling). -/
def Node.is_unrecoverable_failure (n : Node) (maxMemory : ℚ) : Bool :=
  if n.relaunch_count ≥ n.max_relaunch_count
      ∨ n.exit_reason = some NodeExitReason.FATAL_ERROR
      ∨ n.used_resource.memory ≥ maxMemory
  then true else false

/-- `Node.set_exit_reason(reason)`. -/
def Node.set_exit_reason (n : Node) (reason : Option NodeExitReason) : Node :=
  { n with exit_reason := reason }

/-- The mutating operations of the `Node` class, for invariant claims
quantifying over "every Node operation". -/
inductive NodeOp where
  | incRelaunch
  | updateInfo (name : Option (List Char)) (start_time : Option ℕ) (create_time : Option ℕ)
  | updateStatus (status : Option NodeStatus)
  | updateUsage (cpu memory : ℚ)
  | setExitReason (reason : Option NodeExitReason)
deriving DecidableEq

/-- Apply one `Node` operation. -/
def applyOp (op : NodeOp) (n : Node) : Node :=
  match op with
  | NodeOp.incRelaunch => n.inc_relaunch_count
  | NodeOp.updateInfo a b c => n.update_info a b c
  | NodeOp.updateStatus s => n.update_status s
  | NodeOp.updateUsage c m => n.update_resource_usage c m
  | NodeOp.setExitReason r => n.set_exit_reason r

/-! ### Digit and character lemmas -/

theorem digitVal_digitChar {d : ℕ} (h : d < 10) : digitVal (digitChar d) = d := by
  interval_cases d <;> rfl

theorem isDigitChar_digitChar {d : ℕ} (h : d < 10) : isDigitChar (digitChar d) = true := by
  interval_cases d <;> rfl

theorem digit_not_special {c : Char} (h : isDigitChar c = true) :
    c ≠ ',' ∧ c ≠ '=' ∧ c ≠ '-' ∧ c ≠ '+' ∧ c ≠ '.' ∧ isWS c = false := by
  simp only [isDigitChar, Bool.and_eq_true, decide_eq_true_eq] at h
  have key : ∀ ch : Char, c.toNat ≠ ch.toNat → c ≠ ch := by
    intro ch hne hc
    exact hne (congrArg Char.toNat hc)
  refine ⟨key ',' ?_, key '=' ?_, key '-' ?_, key '+' ?_, key '.' ?_, ?_⟩
  · show c.toNat ≠ 44; omega
  · show c.toNat ≠ 61; omega
  · show c.toNat ≠ 45; omega
  · show c.toNat ≠ 43; omega
  · show c.toNat ≠ 46; omega
  · simp only [isWS, Bool.or_eq_false_iff, decide_eq_false_iff_not]
    refine ⟨⟨⟨⟨⟨key ' ' ?_, key '\t' ?_⟩, key '\n' ?_⟩, key '\r' ?_⟩, ?_⟩, ?_⟩
    · show c.toNat ≠ 32; omega
    · show c.toNat ≠ 9; omega
    · show c.toNat ≠ 10; omega
    · show c.toNat ≠ 13; omega
    · omega
    · omega

theorem natDigits_ne_nil (n : ℕ) : natDigits n ≠ [] := by
  rw [natDigits]
  split <;> simp

theorem natDigits_all_digit (n : ℕ) : ∀ c ∈ natDigits n, isDigitChar c = true := by
  induction n using natDigits.induct with
  | case1 x h =>
      rw [natDigits, if_pos h]
      intro c hc
      simp only [List.mem_singleton] at hc
      subst hc
      exact isDigitChar_digitChar h
  | case2 x h ih =>
      rw [natDigits, if_neg h]
      intro c hc
      rcases List.mem_append.mp hc with hc | hc
      · exact ih c hc
      · simp only [List.mem_singleton] at hc
        subst hc
        exact isDigitChar_digitChar (Nat.mod_lt _ (by omega))

theorem foldl_digitsVal (n : ℕ) :
    ∀ a : ℕ, List.foldl (fun a c => a * 10 + digitVal c) a (natDigits n)
      = a * 10 ^ (natDigits n).length + n := by
  induction n using natDigits.induct with
  | case1 x h =>
      intro a
      rw [natDigits, if_pos h]
      simp [digitVal_digitChar h]
  | case2 x h ih =>
      intro a
      rw [natDigits, if_neg h]
      rw [List.foldl_append, ih a]
      simp only [List.foldl_cons, List.foldl_nil, List.length_append,
        List.length_singleton]
      rw [digitVal_digitChar (Nat.mod_lt _ (by omega))]
      have hx := Nat.div_add_mod x 10
      ring_nf
      omega

theorem digitsVal_natDigits (n : ℕ) : digitsVal (natDigits n) = n := by
  have := foldl_digitsVal n 0
  simpa [digitsVal] using this

theorem natDigits_length_le (n : ℕ) :
    ∀ k : ℕ, n < 10 ^ k → 1 ≤ k → (natDigits n).length ≤ k := by
  induction n using natDigits.induct with
  | case1 x h =>
      intro k _ hk
      rw [natDigits, if_pos h]
      simpa using hk
  | case2 x h ih =>
      intro k hxk hk
      rw [natDigits, if_neg h]
      have hk2 : 2 ≤ k := by
        by_contra hcon
        interval_cases k
        · omega
      have hdiv : x / 10 < 10 ^ (k - 1) := by
        have : x < 10 ^ (k - 1) * 10 := by
          have : 10 ^ (k - 1) * 10 = 10 ^ k := by
            rw [← pow_succ]
            congr 1
            omega
          omega
        omega
      have := ih (k - 1) hdiv (by omega)
      simp only [List.length_append, List.length_singleton]
      omega

theorem digitsVal_replicate_zero (z : ℕ) (l : List Char) :
    digitsVal (List.replicate z '0' ++ l) = digitsVal l := by
  unfold digitsVal
  rw [List.foldl_append]
  have : List.foldl (fun a c => a * 10 + digitVal c) 0 (List.replicate z '0') = 0 := by
    induction z with
    | zero => rfl
    | succ z ih => simpa [List.replicate_succ, digitVal] using ih
  rw [this]

/-! ### takeWhile / dropWhile span lemmas -/

theorem takeWhile_append_stop {p : Char → Bool} (xs : List Char) (y : Char)
    (ys : List Char) (hx : ∀ c ∈ xs, p c = true) (hy : p y = false) :
    (xs ++ y :: ys).takeWhile p = xs ∧ (xs ++ y :: ys).dropWhile p = y :: ys := by
  induction xs with
  | nil => simp [List.takeWhile, List.dropWhile, hy]
  | cons a t ih =>
      have ha : p a = true := hx a (List.mem_cons_self a t)
      have iht := ih (fun c hc => hx c (List.mem_cons_of_mem a hc))
      simp [List.takeWhile, List.dropWhile, ha, iht.1, iht.2]

theorem takeWhile_all {p : Char → Bool} (xs : List Char)
    (hx : ∀ c ∈ xs, p c = true) :
    xs.takeWhile p = xs ∧ xs.dropWhile p = [] := by
  induction xs with
  | nil => simp
  | cons a t ih =>
      have ha : p a = true := hx a (List.mem_cons_self a t)
      have iht := ih (fun c hc => hx c (List.mem_cons_of_mem a hc))
      simp [List.takeWhile, List.dropWhile, ha, iht.1, iht.2]

/-! ### Decimal denominators and `decScale` -/

theorem dvd_ten_pow_self (d : ℕ) (hd : 0 < d) (h : ∃ L, d ∣ 10 ^ L) :
    d ∣ 10 ^ d := by
  induction d using Nat.strong_induction_on with
  | _ d ih =>
    obtain ⟨L, hL⟩ := h
    by_cases h1 : d = 1
    · subst h1; exact one_dvd _
    · obtain ⟨p, pp, pd⟩ := Nat.exists_prime_and_dvd h1
      have p10 : p ∣ 10 := pp.dvd_of_dvd_pow (pd.trans hL)
      have hpd : p * (d / p) = d := Nat.mul_div_cancel' pd
      have hd' : 0 < d / p :=
        Nat.div_pos (Nat.le_of_dvd hd pd) pp.pos
      have hlt : d / p < d := Nat.div_lt_self hd pp.one_lt
      have hdvd' : d / p ∣ d := ⟨p, (Nat.div_mul_cancel pd).symm⟩
      have ih' : d / p ∣ 10 ^ (d / p) :=
        ih (d / p) hlt hd' ⟨L, hdvd'.trans hL⟩
      have step : d ∣ 10 ^ (d / p + 1) := by
        have h2 : p * (d / p) ∣ 10 * 10 ^ (d / p) := mul_dvd_mul p10 ih'
        rw [hpd] at h2
        rw [pow_succ, mul_comm]
        exact h2
      refine step.trans (pow_dvd_pow 10 ?_)
      have hp2 : 2 ≤ p := pp.two_le
      nlinarith [hpd, hd', hp2]

theorem decScale_spec (d : ℕ) (hd : 0 < d) (h : ∃ L, d ∣ 10 ^ L) :
    ∃ k, decScale d = some k ∧ d ∣ 10 ^ k := by
  have hself : d ∣ 10 ^ d := dvd_ten_pow_self d hd h
  have hmem : ∃ x ∈ List.range (d + 1), (10 ^ x % d == 0) = true := by
    refine ⟨d, List.mem_range.mpr (by omega), ?_⟩
    simp [Nat.mod_eq_zero_of_dvd hself]
  have hsome : (decScale d).isSome = true := by
    unfold decScale
    exact List.find?_isSome.mpr hmem
  obtain ⟨k, hk⟩ := Option.isSome_iff_exists.mp hsome
  refine ⟨k, hk, ?_⟩
  have hp := List.find?_some hk
  simp only [beq_iff_eq] at hp
  exact Nat.dvd_of_mod_eq_zero hp

/-! ### Rendering / parsing round trip for exact decimals -/

theorem parseUnsigned_frac (l fp : List Char)
    (h2 : l.dropWhile isDigitChar = '.' :: fp) :
    parseUnsigned l =
      if (l.takeWhile isDigitChar ≠ [] ∨ fp ≠ []) ∧ fp.all isDigitChar then
        some ((digitsVal (l.takeWhile isDigitChar) : ℚ) +
          (digitsVal fp : ℚ) / 10 ^ fp.length)
      else none := by
  unfold parseUnsigned
  rw [h2]
  split
  · rename_i heq
    simp at heq
  · rename_i fp2 heq
    injection heq with h1 h2
    subst h2
    rfl
  · rename_i x hnil hcons
    exact absurd rfl (hcons fp)

theorem parseUnsigned_renderScaled (m k : ℕ) :
    parseUnsigned (renderScaled m k) = some ((m : ℚ) / 10 ^ k) := by
  by_cases hk0 : k = 0
  · subst hk0
    have split := takeWhile_append_stop (natDigits m) '.' ['0']
      (natDigits_all_digit m) (by decide)
    unfold renderScaled
    rw [if_pos rfl]
    rw [parseUnsigned_frac _ ['0'] split.2, split.1]
    have hne : natDigits m ≠ [] := natDigits_ne_nil m
    rw [if_pos (by exact ⟨Or.inl hne, by decide⟩)]
    rw [digitsVal_natDigits]
    have h0 : digitsVal ['0'] = 0 := by decide
    rw [h0]
    norm_num
  · have h10k : 0 < 10 ^ k := pow_pos (by norm_num) k
    have hlo : m % 10 ^ k < 10 ^ k := Nat.mod_lt _ h10k
    have hfdlen : (natDigits (m % 10 ^ k)).length ≤ k :=
      natDigits_length_le (m % 10 ^ k) k hlo (by omega)
    have hpad_all : ∀ c ∈ List.replicate (k - (natDigits (m % 10 ^ k)).length) '0'
        ++ natDigits (m % 10 ^ k), isDigitChar c = true := by
      intro c hc
      rcases List.mem_append.mp hc with hc | hc
      · rw [List.eq_of_mem_replicate hc]; decide
      · exact natDigits_all_digit _ c hc
    have hpadlen : (List.replicate (k - (natDigits (m % 10 ^ k)).length) '0'
        ++ natDigits (m % 10 ^ k)).length = k := by
      simp only [List.length_append, List.length_replicate]
      omega
    have split := takeWhile_append_stop (natDigits (m / 10 ^ k)) '.'
      (List.replicate (k - (natDigits (m % 10 ^ k)).length) '0' ++ natDigits (m % 10 ^ k))
      (natDigits_all_digit (m / 10 ^ k)) (by decide)
    unfold renderScaled
    rw [if_neg hk0]
    rw [parseUnsigned_frac _ _ split.2, split.1]
    have hne : natDigits (m / 10 ^ k) ≠ [] := natDigits_ne_nil _
    rw [if_pos (by exact ⟨Or.inl hne, List.all_eq_true.mpr hpad_all⟩)]
    rw [digitsVal_natDigits, digitsVal_replicate_zero, digitsVal_natDigits, hpadlen]
    congr 1
    have hdm : (m / 10 ^ k) * 10 ^ k + m % 10 ^ k = m := by
      rw [Nat.mul_comm]
      exact Nat.div_add_mod m (10 ^ k)
    have h10 : ((10 : ℚ) ^ k) ≠ 0 := by positivity
    field_simp
    exact_mod_cast congrArg (fun n : ℕ => (n : ℚ)) hdm

theorem parseUnsigned_renderPosQ (q : ℚ) (hq : 0 ≤ q)
    (hdec : ∃ L, (q.den : ℕ) ∣ 10 ^ L) :
    parseUnsigned (renderPosQ q) = some q := by
  obtain ⟨k, hks, hkd⟩ := decScale_spec q.den q.pos hdec
  have hck : q.den * (10 ^ k / q.den) = 10 ^ k := Nat.mul_div_cancel' hkd
  have hnum : (q.num.toNat : ℤ) = q.num := Int.toNat_of_nonneg (Rat.num_nonneg.mpr hq)
  have hden0 : ((q.den : ℚ)) ≠ 0 := by
    exact_mod_cast Nat.pos_iff_ne_zero.mp q.pos
  have h10 : ((10 : ℚ) ^ k) ≠ 0 := by positivity
  have key : ((q.num.toNat * (10 ^ k / q.den) : ℕ) : ℚ) = q * 10 ^ k := by
    have h1 : ((10 : ℚ) ^ k) = (q.den : ℚ) * ((10 ^ k / q.den : ℕ) : ℚ) := by
      exact_mod_cast hck.symm
    have h2 : ((q.num.toNat : ℕ) : ℚ) = (q.num : ℚ) := by
      exact_mod_cast congrArg (fun z : ℤ => (z : ℚ)) hnum
    have h3 : q * (q.den : ℚ) = (q.num : ℚ) := by
      rw [mul_comm]
      exact_mod_cast Rat.den_mul_eq_num q
    push_cast
    rw [h2, h1, ← mul_assoc, h3]
  have hrender : renderPosQ q = renderScaled (q.num.toNat * (10 ^ k / q.den)) k := by
    unfold renderPosQ
    rw [hks]
  rw [hrender, parseUnsigned_renderScaled]
  rw [key]
  congr 1
  field_simp


theorem head_digit_of_natDigits_append (x : ℕ) (rest : List Char) :
    ∀ c, (natDigits x ++ rest).head? = some c → isDigitChar c = true := by
  intro c hc
  rcases hx : natDigits x with _ | ⟨a, t⟩
  · exact absurd hx (natDigits_ne_nil x)
  · rw [hx] at hc
    simp only [List.cons_append, List.head?_cons, Option.some_inj] at hc
    subst hc
    exact natDigits_all_digit x a (hx ▸ List.mem_cons_self a t)

theorem renderPosQ_head (q : ℚ) :
    ∀ c, (renderPosQ q).head? = some c → isDigitChar c = true := by
  intro c hc
  unfold renderPosQ at hc
  rcases hd : decScale q.den with _ | k <;> rw [hd] at hc <;> dsimp only at hc
  · simp only [List.head?_cons, Option.some_inj] at hc
    subst hc
    decide
  · unfold renderScaled at hc
    by_cases hk : k = 0
    · rw [if_pos hk] at hc
      exact head_digit_of_natDigits_append _ _ c hc
    · rw [if_neg hk] at hc
      exact head_digit_of_natDigits_append _ _ c hc

theorem parseNum_eq_parseUnsigned {l : List Char}
    (h : ∀ c, l.head? = some c → c ≠ '-' ∧ c ≠ '+') :
    parseNum l = parseUnsigned l := by
  unfold parseNum
  split
  · exact absurd rfl ((h '-' rfl).1)
  · exact absurd rfl ((h '+' rfl).2)
  · rfl

theorem parseNum_renderNum (q : ℚ) (hdec : ∃ L, (q.den : ℕ) ∣ 10 ^ L) :
    parseNum (renderNum q) = some q := by
  unfold renderNum
  by_cases hq : q < 0
  · rw [if_pos hq]
    have hstep : parseNum ('-' :: renderPosQ (-q))
        = (parseUnsigned (renderPosQ (-q))).map (fun x => -x) := rfl
    rw [hstep, parseUnsigned_renderPosQ (-q) (by linarith) (by rwa [Rat.neg_den])]
    simp
  · rw [if_neg hq]
    rw [parseNum_eq_parseUnsigned (fun c hc => by
      have hd := renderPosQ_head q c hc
      exact ⟨(digit_not_special hd).2.2.1, (digit_not_special hd).2.2.2.1⟩)]
    exact parseUnsigned_renderPosQ q (by linarith [not_lt.mp hq]) hdec

theorem parseInt_renderInt (n : ℤ) : parseInt (renderInt n) = some n := by
  unfold renderInt
  by_cases hn : n < 0
  · rw [if_pos hn]
    have hstep : parseInt ('-' :: natDigits (-n).toNat)
        = if natDigits (-n).toNat ≠ [] ∧ (natDigits (-n).toNat).all isDigitChar
          then some (-(digitsVal (natDigits (-n).toNat) : ℤ)) else none := rfl
    rw [hstep, if_pos ⟨natDigits_ne_nil _,
      List.all_eq_true.mpr (natDigits_all_digit _)⟩]
    rw [digitsVal_natDigits]
    have : ((-n).toNat : ℤ) = -n := Int.toNat_of_nonneg (by omega)
    rw [this]
    simp
  · rw [if_neg hn]
    unfold parseInt
    split
    · rename_i r heq
      have : isDigitChar '-' = true :=
        natDigits_all_digit n.toNat '-' (heq ▸ List.mem_cons_self '-' r)
      exact absurd this (by decide)
    · rename_i r heq
      have : isDigitChar '+' = true :=
        natDigits_all_digit n.toNat '+' (heq ▸ List.mem_cons_self '+' r)
      exact absurd this (by decide)
    · rw [if_pos ⟨natDigits_ne_nil _,
        List.all_eq_true.mpr (natDigits_all_digit _)⟩]
      rw [digitsVal_natDigits]
      have : (n.toNat : ℤ) = n := Int.toNat_of_nonneg (by omega)
      rw [this]

/-! ### What `parseUnsigned` / `parseNum` accept and produce -/

theorem parseUnsigned_some_den {l : List Char} {q : ℚ}
    (h : parseUnsigned l = some q) : ∃ L, (q.den : ℕ) ∣ 10 ^ L := by
  unfold parseUnsigned at h
  split at h
  · split at h
    · exact absurd h (by simp)
    · refine ⟨0, ?_⟩
      have hq : q = ((digitsVal (l.takeWhile isDigitChar) : ℕ) : ℚ) :=
        (Option.some_inj.mp h).symm
      rw [hq, Rat.den_natCast]
      simp
  · rename_i fp heq
    split at h
    · rename_i hcond
      have hq : q = (digitsVal (l.takeWhile isDigitChar) : ℚ) +
          (digitsVal fp : ℚ) / 10 ^ fp.length := (Option.some_inj.mp h).symm
      refine ⟨fp.length, ?_⟩
      have h10 : ((10 : ℚ) ^ fp.length) ≠ 0 := by positivity
      have hrepr : q = Rat.divInt
          ((digitsVal (l.takeWhile isDigitChar) : ℤ) * 10 ^ fp.length
            + (digitsVal fp : ℤ)) ((10 : ℤ) ^ fp.length) := by
        rw [Rat.divInt_eq_div, hq]
        push_cast
        field_simp
      have hdvd := Rat.den_dvd
        ((digitsVal (l.takeWhile isDigitChar) : ℤ) * 10 ^ fp.length
          + (digitsVal fp : ℤ)) ((10 : ℤ) ^ fp.length)
      rw [← hrepr] at hdvd
      have hdvd2 : (q.den : ℤ) ∣ ((10 ^ fp.length : ℕ) : ℤ) := by
        exact_mod_cast hdvd
      exact_mod_cast hdvd2
    · exact absurd h (by simp)
  · exact absurd h (by simp)

theorem parseNum_some_den {l : List Char} {q : ℚ} (h : parseNum l = some q) :
    ∃ L, (q.den : ℕ) ∣ 10 ^ L := by
  unfold parseNum at h
  split at h
  · obtain ⟨q', hq', hneg⟩ := Option.map_eq_some'.mp h
    obtain ⟨L, hL⟩ := parseUnsigned_some_den hq'
    subst hneg
    exact ⟨L, by rwa [Rat.neg_den]⟩
  · exact parseUnsigned_some_den h
  · exact parseUnsigned_some_den h

theorem parseUnsigned_some_chars {l : List Char} {q : ℚ}
    (h : parseUnsigned l = some q) :
    ∀ c ∈ l, isDigitChar c = true ∨ c = '.' := by
  have hsplit := List.takeWhile_append_dropWhile isDigitChar l
  unfold parseUnsigned at h
  split at h
  · rename_i heq
    intro c hc
    rw [← hsplit, heq, List.append_nil] at hc
    exact Or.inl (List.mem_takeWhile_imp hc)
  · rename_i fp heq
    have hfp : fp.all isDigitChar = true := by
      by_cases hcond : (l.takeWhile isDigitChar ≠ [] ∨ fp ≠ []) ∧ fp.all isDigitChar
      · exact hcond.2
      · rw [if_neg hcond] at h
        exact absurd h (by simp)
    intro c hc
    rw [← hsplit, heq] at hc
    rcases List.mem_append.mp hc with hc | hc
    · exact Or.inl (List.mem_takeWhile_imp hc)
    · rcases List.mem_cons.mp hc with rfl | hc
      · exact Or.inr rfl
      · exact Or.inl (List.all_eq_true.mp hfp c hc)
  · exact absurd h (by simp)

theorem parseNum_some_chars {l : List Char} {q : ℚ} (h : parseNum l = some q) :
    ∀ c ∈ l, isDigitChar c = true ∨ c = '.' ∨ c = '-' ∨ c = '+' := by
  unfold parseNum at h
  split at h
  · obtain ⟨q', hq', _⟩ := Option.map_eq_some'.mp h
    intro c hc
    rcases List.mem_cons.mp hc with rfl | hc
    · exact Or.inr (Or.inr (Or.inl rfl))
    · rcases parseUnsigned_some_chars hq' c hc with hd | hd
      · exact Or.inl hd
      · exact Or.inr (Or.inl hd)
  · intro c hc
    rcases List.mem_cons.mp hc with rfl | hc
    · exact Or.inr (Or.inr (Or.inr rfl))
    · rcases parseUnsigned_some_chars h c hc with hd | hd
      · exact Or.inl hd
      · exact Or.inr (Or.inl hd)
  · intro c hc
    rcases parseUnsigned_some_chars h c hc with hd | hd
    · exact Or.inl hd
    · exact Or.inr (Or.inl hd)

theorem parseNum_some_safe {l : List Char} {q : ℚ} (h : parseNum l = some q) :
    ∀ c ∈ l, c ≠ ',' ∧ c ≠ '=' ∧ isWS c = false := by
  intro c hc
  rcases parseNum_some_chars h c hc with hd | rfl | rfl | rfl
  · exact ⟨(digit_not_special hd).1, (digit_not_special hd).2.1,
      (digit_not_special hd).2.2.2.2.2⟩
  · exact ⟨by decide, by decide, by decide⟩
  · exact ⟨by decide, by decide, by decide⟩
  · exact ⟨by decide, by decide, by decide⟩

/-! ### Character content of the renderers -/

theorem renderScaled_chars (m k : ℕ) :
    ∀ c ∈ renderScaled m k, isDigitChar c = true ∨ c = '.' := by
  intro c hc
  unfold renderScaled at hc
  split at hc
  · rcases List.mem_append.mp hc with hc | hc
    · exact Or.inl (natDigits_all_digit _ c hc)
    · rcases List.mem_cons.mp hc with rfl | hc
      · exact Or.inr rfl
      · simp only [List.mem_singleton] at hc
        subst hc
        exact Or.inl (by decide)
  · rcases List.mem_append.mp hc with hc | hc
    · exact Or.inl (natDigits_all_digit _ c hc)
    · rcases List.mem_cons.mp hc with rfl | hc
      · exact Or.inr rfl
      · rcases List.mem_append.mp hc with hc | hc
        · rw [List.eq_of_mem_replicate hc]
          exact Or.inl (by decide)
        · exact Or.inl (natDigits_all_digit _ c hc)

theorem renderPosQ_chars (q : ℚ) :
    ∀ c ∈ renderPosQ q, isDigitChar c = true ∨ c = '.' := by
  intro c hc
  unfold renderPosQ at hc
  rcases hd : decScale q.den with _ | k <;> rw [hd] at hc <;> dsimp only at hc
  · simp only [List.mem_singleton] at hc
    subst hc
    exact Or.inl (by decide)
  · exact renderScaled_chars _ _ c hc

theorem renderNum_chars (q : ℚ) :
    ∀ c ∈ renderNum q, isDigitChar c = true ∨ c = '.' ∨ c = '-' := by
  intro c hc
  unfold renderNum at hc
  split at hc
  · rcases List.mem_cons.mp hc with rfl | hc
    · exact Or.inr (Or.inr rfl)
    · rcases renderPosQ_chars _ c hc with hd | hd
      · exact Or.inl hd
      · exact Or.inr (Or.inl hd)
  · rcases renderPosQ_chars _ c hc with hd | hd
    · exact Or.inl hd
    · exact Or.inr (Or.inl hd)

theorem renderInt_chars (n : ℤ) :
    ∀ c ∈ renderInt n, isDigitChar c = true ∨ c = '-' := by
  intro c hc
  unfold renderInt at hc
  split at hc
  · rcases List.mem_cons.mp hc with rfl | hc
    · exact Or.inr rfl
    · exact Or.inl (natDigits_all_digit _ c hc)
  · exact Or.inl (natDigits_all_digit _ c hc)

theorem renderNum_safe (q : ℚ) :
    ∀ c ∈ renderNum q, c ≠ ',' ∧ c ≠ '=' ∧ isWS c = false := by
  intro c hc
  rcases renderNum_chars q c hc with hd | rfl | rfl
  · exact ⟨(digit_not_special hd).1, (digit_not_special hd).2.1,
      (digit_not_special hd).2.2.2.2.2⟩
  · exact ⟨by decide, by decide, by decide⟩
  · exact ⟨by decide, by decide, by decide⟩

theorem renderInt_safe (n : ℤ) :
    ∀ c ∈ renderInt n, c ≠ ',' ∧ c ≠ '=' ∧ isWS c = false := by
  intro c hc
  rcases renderInt_chars n c hc with hd | rfl
  · exact ⟨(digit_not_special hd).1, (digit_not_special hd).2.1,
      (digit_not_special hd).2.2.2.2.2⟩
  · exact ⟨by decide, by decide, by decide⟩

theorem renderScaled_ne_nil (m k : ℕ) : renderScaled m k ≠ [] := by
  unfold renderScaled
  split <;>
  · intro h
    exact natDigits_ne_nil _ (List.append_eq_nil.mp h).1

theorem renderPosQ_ne_nil (q : ℚ) : renderPosQ q ≠ [] := by
  unfold renderPosQ
  rcases hd : decScale q.den with _ | k
  · simp
  · dsimp only
    exact renderScaled_ne_nil _ _

theorem renderNum_ne_nil (q : ℚ) : renderNum q ≠ [] := by
  unfold renderNum
  split
  · simp
  · exact renderPosQ_ne_nil q

theorem renderInt_ne_nil (n : ℤ) : renderInt n ≠ [] := by
  unfold renderInt
  split
  · simp
  · exact natDigits_ne_nil _

/-! ### strip, split and join lemmas -/

theorem dropWhile_eq_self_of_head {p : Char → Bool} (l : List Char)
    (h : ∀ c, l.head? = some c → p c = false) : l.dropWhile p = l := by
  cases l with
  | nil => rfl
  | cons a t => simp [List.dropWhile_cons, h a rfl]

theorem pyStrip_eq_self (l : List Char)
    (hh : ∀ c, l.head? = some c → isWS c = false)
    (hl : ∀ c, l.getLast? = some c → isWS c = false) : pyStrip l = l := by
  unfold pyStrip
  rw [dropWhile_eq_self_of_head l hh]
  rw [dropWhile_eq_self_of_head l.reverse
    (fun c hc => hl c (by rwa [List.head?_reverse] at hc))]
  exact List.reverse_reverse l

theorem splitOnChar_no_sep (sep : Char) (l : List Char) (h : sep ∉ l) :
    splitOnChar sep l = [l] := by
  induction l with
  | nil => rfl
  | cons c t ih =>
      have hc : c ≠ sep := fun hc => h (hc ▸ List.mem_cons_self c t)
      have ht : sep ∉ t := fun hm => h (List.mem_cons_of_mem c hm)
      unfold splitOnChar
      rw [if_neg hc, ih ht]

theorem splitOnChar_cons (sep c : Char) (rest : List Char) :
    splitOnChar sep (c :: rest) =
      if c = sep then [] :: splitOnChar sep rest
      else
        match splitOnChar sep rest with
        | [] => [[c]]
        | t :: ts => (c :: t) :: ts := rfl

theorem splitOnChar_append (sep : Char) (l₁ l₂ : List Char) (h : sep ∉ l₁) :
    splitOnChar sep (l₁ ++ sep :: l₂) = l₁ :: splitOnChar sep l₂ := by
  induction l₁ with
  | nil =>
      show splitOnChar sep (sep :: l₂) = [] :: splitOnChar sep l₂
      rw [splitOnChar_cons, if_pos rfl]
  | cons c t ih =>
      have hc : c ≠ sep := fun hc => h (hc ▸ List.mem_cons_self c t)
      have ht : sep ∉ t := fun hm => h (List.mem_cons_of_mem c hm)
      show splitOnChar sep (c :: (t ++ sep :: l₂)) = (c :: t) :: splitOnChar sep l₂
      rw [splitOnChar_cons, if_neg hc, ih ht]

theorem splitOnChar_mem_no_sep (sep : Char) (l : List Char) :
    ∀ t ∈ splitOnChar sep l, sep ∉ t := by
  induction l with
  | nil =>
      intro t ht
      simp only [splitOnChar, List.mem_singleton] at ht
      subst ht
      simp
  | cons c rest ih =>
      intro t ht
      unfold splitOnChar at ht
      by_cases hc : c = sep
      · rw [if_pos hc] at ht
        rcases List.mem_cons.mp ht with rfl | ht
        · simp
        · exact ih t ht
      · rw [if_neg hc] at ht
        rcases hs : splitOnChar sep rest with _ | ⟨t', ts⟩
        · rw [hs] at ht
          simp only [List.mem_singleton] at ht
          subst ht
          intro hmem
          rcases List.mem_cons.mp hmem with h1 | h1
          · exact hc h1.symm
          · simp at h1
        · rw [hs] at ht
          rcases List.mem_cons.mp ht with rfl | ht
          · intro hmem
            rcases List.mem_cons.mp hmem with h1 | h1
            · exact hc h1.symm
            · exact ih t' (hs ▸ List.mem_cons_self t' ts) h1
          · exact ih t (hs ▸ List.mem_cons_of_mem t' ht)

theorem joinComma_cons (x : List Char) (xs : List (List Char)) (hxs : xs ≠ []) :
    joinComma (x :: xs) = x ++ ',' :: joinComma xs := by
  cases xs with
  | nil => exact absurd rfl hxs
  | cons y ys => rfl

theorem splitOnChar_joinComma (parts : List (List Char)) (hne : parts ≠ [])
    (h : ∀ t ∈ parts, ',' ∉ t) :
    splitOnChar ',' (joinComma parts) = parts := by
  induction parts with
  | nil => exact absurd rfl hne
  | cons x xs ih =>
      cases xs with
      | nil => exact splitOnChar_no_sep ',' x (h x (List.mem_cons_self x []))
      | cons y ys =>
          rw [joinComma_cons x (y :: ys) (by simp)]
          rw [splitOnChar_append ',' x _ (h x (List.mem_cons_self x (y :: ys)))]
          rw [ih (by simp) (fun t ht => h t (List.mem_cons_of_mem x ht))]

theorem getLast?_append_right (l₁ l₂ : List Char) (h : l₂ ≠ []) :
    (l₁ ++ l₂).getLast? = l₂.getLast? := by
  rw [List.getLast?_append]
  rcases hx : l₂.getLast? with _ | y
  · rw [List.getLast?_eq_none_iff] at hx
    exact absurd hx h
  · rfl

theorem mem_of_getLast? {l : List Char} {c : Char} (h : l.getLast? = some c) :
    c ∈ l := by
  induction l with
  | nil => simp at h
  | cons a t ih =>
      cases t with
      | nil =>
          simp only [List.getLast?_singleton, Option.some_inj] at h
          subst h
          exact List.mem_cons_self a []
      | cons b u =>
          rw [List.getLast?_cons_cons] at h
          exact List.mem_cons_of_mem a (ih h)

/-! ### tokenKV, dict and gpu-loop lemmas -/

theorem tokenKV_append (key value : List Char) (hk : '=' ∉ key) (hv : '=' ∉ value) :
    tokenKV (key ++ '=' :: value) = some (key, value) := by
  have hkeep : ∀ c ∈ key, (decide (c ≠ '=')) = true := by
    intro c hc
    simp only [decide_eq_true_eq]
    exact fun h => hk (h ▸ hc)
  have hstop : (decide (('=' : Char) ≠ '=')) = false := by simp
  have split := takeWhile_append_stop (p := fun c => decide (c ≠ '=')) key '=' value
    hkeep hstop
  unfold tokenKV
  rw [split.2]
  dsimp only
  rw [split.1]
  rw [(takeWhile_all (p := fun c => decide (c ≠ '=')) value (by
    intro c hc
    simp only [decide_eq_true_eq]
    exact fun h => hv (h ▸ hc))).1]

theorem tokenKV_key {t : List Char} {kv : List Char × List Char}
    (h : tokenKV t = some kv) : ∀ c ∈ kv.1, c ∈ t ∧ c ≠ '=' := by
  unfold tokenKV at h
  split at h
  · exact absurd h (by simp)
  · have heq := Option.some_inj.mp h
    intro c hc
    rw [← heq] at hc
    dsimp only at hc
    constructor
    · exact (List.takeWhile_sublist _).subset hc
    · have := List.mem_takeWhile_imp hc
      simpa using this

theorem dictInsert_key_mem (d : List (List Char × List Char)) (k v : List Char) :
    ∀ e ∈ dictInsert d k v, e.1 = k ∨ ∃ e' ∈ d, e.1 = e'.1 := by
  induction d with
  | nil =>
      intro e he
      simp only [dictInsert, List.mem_singleton] at he
      subst he
      exact Or.inl rfl
  | cons hd rest ih =>
      intro e he
      obtain ⟨k', v'⟩ := hd
      unfold dictInsert at he
      by_cases hk : k' = k
      · rw [if_pos hk] at he
        rcases List.mem_cons.mp he with rfl | he
        · exact Or.inl hk
        · exact Or.inr ⟨e, List.mem_cons_of_mem _ he, rfl⟩
      · rw [if_neg hk] at he
        rcases List.mem_cons.mp he with rfl | he
        · exact Or.inr ⟨(k', v'), List.mem_cons_self _ _, rfl⟩
        · rcases ih e he with h | ⟨e', he', heq⟩
          · exact Or.inl h
          · exact Or.inr ⟨e', List.mem_cons_of_mem _ he', heq⟩

theorem buildDict_key_prop (P : List Char → Prop) (ts : List (List Char)) :
    ∀ d0 d, buildDict ts d0 = some d →
    (∀ e ∈ d0, P e.1) →
    (∀ t ∈ ts, ∀ kv, tokenKV t = some kv → P kv.1) →
    ∀ e ∈ d, P e.1 := by
  induction ts with
  | nil =>
      intro d0 d h h0 _
      obtain rfl := Option.some_inj.mp h
      exact h0
  | cons t ts ih =>
      intro d0 d h h0 hts
      unfold buildDict at h
      rcases htk : tokenKV t with _ | kv
      · rw [htk] at h
        exact absurd h (by simp)
      · rw [htk] at h
        refine ih _ _ h ?_ ?_
        · intro e he
          rcases dictInsert_key_mem d0 kv.1 kv.2 e he with heq | ⟨e', he', heq⟩
          · rw [heq]
            exact hts t (List.mem_cons_self _ _) kv htk
          · rw [heq]
            exact h0 e' he'
        · intro t' ht' kv' h'
          exact hts t' (List.mem_cons_of_mem _ ht') kv' h'

theorem gpuFold_no_match (d : List (List Char × List Char))
    (acc : Option (List Char) × ℤ)
    (h : ∀ kv ∈ d, containsSub (str "nvidia.com") kv.1 = false) :
    gpuFold d acc = some acc := by
  induction d generalizing acc with
  | nil => rfl
  | cons kv rest ih =>
      obtain ⟨k, v⟩ := kv
      unfold gpuFold
      rw [if_neg (by simp [h (k, v) (List.mem_cons_self _ _)])]
      exact ih acc (fun kv hkv => h kv (List.mem_cons_of_mem _ hkv))

theorem gpuFold_append_last (d₁ d₂ : List (List Char × List Char))
    (k v : List Char) (res : Option (List Char) × ℤ)
    (hk : containsSub (str "nvidia.com") k = true)
    (h2 : ∀ kv ∈ d₂, containsSub (str "nvidia.com") kv.1 = false) :
    ∀ acc, gpuFold (d₁ ++ (k, v) :: d₂) acc = some res →
    res.1 = some k ∧ parseInt v = some res.2 := by
  induction d₁ with
  | nil =>
      intro acc h
      rw [List.nil_append] at h
      unfold gpuFold at h
      rw [if_pos hk] at h
      rcases hv : parseInt v with _ | n
      · rw [hv] at h
        exact absurd h (by simp)
      · rw [hv] at h
        dsimp only at h
        rw [gpuFold_no_match d₂ _ h2] at h
        have heq := Option.some_inj.mp h
        rw [← heq]
        exact ⟨rfl, rfl⟩
  | cons kv' rest ih =>
      intro acc h
      obtain ⟨k', v'⟩ := kv'
      rw [List.cons_append] at h
      unfold gpuFold at h
      by_cases hk' : containsSub (str "nvidia.com") k' = true
      · rw [if_pos hk'] at h
        rcases hv' : parseInt v' with _ | n'
        · rw [hv'] at h
          exact absurd h (by simp)
        · rw [hv'] at h
          dsimp only at h
          exact ih _ h
      · rw [if_neg hk'] at h
        exact ih _ h

theorem gpuFold_some_type (d : List (List Char × List Char)) :
    ∀ acc res, gpuFold d acc = some res →
    res = acc ∨ ∃ kv ∈ d, containsSub (str "nvidia.com") kv.1 = true ∧
      res.1 = some kv.1 ∧ parseInt kv.2 = some res.2 := by
  induction d with
  | nil =>
      intro acc res h
      exact Or.inl (Option.some_inj.mp h).symm
  | cons kv rest ih =>
      intro acc res h
      obtain ⟨k, v⟩ := kv
      unfold gpuFold at h
      by_cases hk : containsSub (str "nvidia.com") k = true
      · rw [if_pos hk] at h
        rcases hv : parseInt v with _ | n
        · rw [hv] at h
          exact absurd h (by simp)
        · rw [hv] at h
          dsimp only at h
          rcases ih _ _ h with heq | ⟨kv', hkv', h1, h2, h3⟩
          · right
            refine ⟨(k, v), List.mem_cons_self _ _, hk, ?_, ?_⟩
            · rw [heq]
            · rw [heq]
              exact hv
          · right
            exact ⟨kv', List.mem_cons_of_mem _ hkv', h1, h2, h3⟩
      · rw [if_neg hk] at h
        rcases ih _ _ h with heq | ⟨kv', hkv', h1, h2, h3⟩
        · exact Or.inl heq
        · right
          exact ⟨kv', List.mem_cons_of_mem _ hkv', h1, h2, h3⟩

theorem leadsWith_length {needle hay : List Char} (h : leadsWith needle hay = true) :
    needle.length ≤ hay.length := by
  induction needle generalizing hay with
  | nil => simp
  | cons a as ih =>
      cases hay with
      | nil => simp [leadsWith] at h
      | cons b bs =>
          simp only [leadsWith, Bool.and_eq_true] at h
          have := ih h.2
          simp only [List.length_cons]
          omega

theorem containsSub_length {needle hay : List Char}
    (h : containsSub needle hay = true) : needle.length ≤ hay.length := by
  induction hay with
  | nil =>
      unfold containsSub at h
      simp only [Bool.or_eq_true] at h
      rcases h with h | h
      · exact leadsWith_length h
      · simp at h
  | cons b bs ih =>
      unfold containsSub at h
      simp only [Bool.or_eq_true] at h
      rcases h with h | h
      · exact leadsWith_length h
      · have := ih h
        simp only [List.length_cons]
        omega

/-! ### Destructuring a successful parse -/

theorem parse_some_elim {s : List Char} {r : NodeResource} (hs : s ≠ [])
    (h : NodeResource.resource_str_to_node_resource (some s) = some r) :
    ∃ d memory cpu g,
      buildDict (splitOnChar ',' (pyStrip s)) [] = some d ∧
      parseNum (memorySlice d) = some memory ∧
      parseNum ((dictGet d (str "cpu")).getD (str "0")) = some cpu ∧
      gpuFold d (none, 0) = some g ∧
      r = NodeResource.new cpu memory g.1 g.2 := by
  unfold NodeResource.resource_str_to_node_resource at h
  dsimp only at h
  rw [if_neg hs] at h
  rcases hb : buildDict (splitOnChar ',' (pyStrip s)) [] with _ | d <;> rw [hb] at h
  · exact absurd h (by simp)
  · dsimp only at h
    rcases hm : parseNum (memorySlice d) with _ | memory <;> rw [hm] at h
    · exact absurd h (by simp)
    rcases hc : parseNum ((dictGet d (str "cpu")).getD (str "0")) with _ | cpu <;>
      rw [hc] at h
    · exact absurd h (by simp)
    rcases hg : gpuFold d (none, 0) with _ | g <;> rw [hg] at h
    · exact absurd h (by simp)
    dsimp only at h
    exact ⟨d, memory, cpu, g, rfl, hm, hc, hg, (Option.some_inj.mp h).symm⟩

theorem dictGet_cons (k' v : List Char) (rest : List (List Char × List Char))
    (k : List Char) :
    dictGet ((k', v) :: rest) k = if k' = k then some v else dictGet rest k := rfl

theorem dictInsert_cons (k' v' : List Char) (rest : List (List Char × List Char))
    (k v : List Char) :
    dictInsert ((k', v') :: rest) k v =
      if k' = k then (k', v) :: rest else (k', v') :: dictInsert rest k v := rfl

theorem buildDict_cons_some (t : List Char) (ts : List (List Char))
    (d : List (List Char × List Char)) (kv : List Char × List Char)
    (h : tokenKV t = some kv) :
    buildDict (t :: ts) d = buildDict ts (dictInsert d kv.1 kv.2) := by
  show (match tokenKV t with
    | none => none
    | some kv => buildDict ts (dictInsert d kv.1 kv.2)) = _
  rw [h]

theorem gpuFold_cons_no (k v : List Char) (rest : List (List Char × List Char))
    (acc : Option (List Char) × ℤ)
    (h : containsSub (str "nvidia.com") k = false) :
    gpuFold ((k, v) :: rest) acc = gpuFold rest acc := by
  show (if containsSub (str "nvidia.com") k = true then
      match parseInt v with
      | none => none
      | some n => gpuFold rest (some k, n)
    else gpuFold rest acc) = gpuFold rest acc
  rw [if_neg (by simp [h])]

theorem gpuFold_cons_yes (k v : List Char) (rest : List (List Char × List Char))
    (acc : Option (List Char) × ℤ) (n : ℤ)
    (hk : containsSub (str "nvidia.com") k = true) (hv : parseInt v = some n) :
    gpuFold ((k, v) :: rest) acc = gpuFold rest (some k, n) := by
  show (if containsSub (str "nvidia.com") k = true then
      match parseInt v with
      | none => none
      | some n => gpuFold rest (some k, n)
    else gpuFold rest acc) = gpuFold rest (some k, n)
  rw [if_pos hk, hv]

theorem memorySlice_of_get {d : List (List Char × List Char)}
    {M mem : List Char} (h : dictGet d (str "memory") = some M)
    (hM : M = mem ++ str "Mi") : memorySlice d = mem := by
  unfold memorySlice memoryValue
  rw [h]
  show (M.take (M.length - 2)) = mem
  rw [hM]
  have hlen : (mem ++ str "Mi").length - 2 = mem.length := by
    simp [List.length_append, str]
  rw [hlen]
  exact List.take_left mem (str "Mi")

theorem parse_some_props {s : List Char} {r : NodeResource}
    (h : NodeResource.resource_str_to_node_resource (some s) = some r) :
    (∃ L, (r.cpu.den : ℕ) ∣ 10 ^ L) ∧ (∃ L, (r.memory.den : ℕ) ∣ 10 ^ L) ∧
    ((r.gpu_type, r.gpu_num) = (none, 0) ∨
      ∃ K, r.gpu_type = some K ∧ containsSub (str "nvidia.com") K = true ∧
        ',' ∉ K ∧ '=' ∉ K) := by
  by_cases hs : s = []
  · subst hs
    have hr : r = NodeResource.new 0 0 none 0 := by
      unfold NodeResource.resource_str_to_node_resource at h
      dsimp only at h
      rw [if_pos rfl] at h
      exact (Option.some_inj.mp h).symm
    subst hr
    exact ⟨⟨0, by decide⟩, ⟨0, by decide⟩, Or.inl rfl⟩
  · obtain ⟨d, memory, cpu, g, hb, hm, hc, hg, hr⟩ := parse_some_elim hs h
    subst hr
    have hkeys : ∀ e ∈ d, ',' ∉ e.1 ∧ '=' ∉ e.1 := by
      refine buildDict_key_prop (fun k => ',' ∉ k ∧ '=' ∉ k) _ [] d hb (by simp) ?_
      intro t ht kv hkv
      have hnosep := splitOnChar_mem_no_sep ',' (pyStrip s) t ht
      constructor
      · intro hmem
        exact hnosep ((tokenKV_key hkv ',' hmem).1)
      · intro hmem
        exact (tokenKV_key hkv '=' hmem).2 rfl
    refine ⟨parseNum_some_den hc, parseNum_some_den hm, ?_⟩
    rcases gpuFold_some_type d (none, 0) g hg with heq | ⟨kv, hkv, hsub, h1, h2⟩
    · left
      show (g.1, g.2) = (none, 0)
      rw [heq]
    · right
      exact ⟨kv.1, h1, hsub, (hkeys kv hkv).1, (hkeys kv hkv).2⟩

theorem getLast?_append_cons (l₁ : List Char) (a : Char) (l₂ : List Char)
    (h : l₂ ≠ []) : (l₁ ++ a :: l₂).getLast? = l₂.getLast? := by
  rw [getLast?_append_right l₁ (a :: l₂) (by simp)]
  rw [show (a :: l₂) = [a] ++ l₂ from rfl]
  exact getLast?_append_right [a] l₂ h

theorem reparse_two (C Mm : List Char) (rc rm : ℚ)
    (hC : parseNum C = some rc)
    (hCsafe : ∀ c ∈ C, c ≠ ',' ∧ c ≠ '=' ∧ isWS c = false)
    (hM : parseNum Mm = some rm)
    (hMsafe : ∀ c ∈ Mm, c ≠ ',' ∧ c ≠ '=' ∧ isWS c = false) :
    NodeResource.resource_str_to_node_resource
      (some (joinComma [str "cpu" ++ '=' :: C,
        str "memory" ++ '=' :: (Mm ++ str "Mi")]))
      = some (NodeResource.new rc rm none 0) := by
  have hMne : Mm ++ str "Mi" ≠ [] := by simp [str]
  have hMallsafe : ∀ c ∈ Mm ++ str "Mi", c ≠ ',' ∧ c ≠ '=' ∧ isWS c = false := by
    intro c hc
    rcases List.mem_append.mp hc with hc | hc
    · exact hMsafe c hc
    · simp only [str] at hc
      rcases List.mem_cons.mp hc with rfl | hc
      · exact ⟨by decide, by decide, by decide⟩
      · simp only [List.mem_singleton] at hc
        subst hc
        exact ⟨by decide, by decide, by decide⟩
  have htok1 : tokenKV (str "cpu" ++ '=' :: C) = some (str "cpu", C) :=
    tokenKV_append _ _ (by decide) (fun hm => (hCsafe '=' hm).2.1 rfl)
  have htok2 : tokenKV (str "memory" ++ '=' :: (Mm ++ str "Mi"))
      = some (str "memory", Mm ++ str "Mi") :=
    tokenKV_append _ _ (by decide) (fun hm => (hMallsafe '=' hm).2.1 rfl)
  have hpartsnc : ∀ t ∈ [str "cpu" ++ '=' :: C,
      str "memory" ++ '=' :: (Mm ++ str "Mi")], ',' ∉ t := by
    intro t ht
    rcases List.mem_cons.mp ht with rfl | ht
    · intro hm
      rcases List.mem_append.mp hm with hm | hm
      · revert hm; decide
      · rcases List.mem_cons.mp hm with he | hm
        · exact absurd he (by decide)
        · exact (hCsafe ',' hm).1 rfl
    · simp only [List.mem_singleton] at ht
      subst ht
      intro hm
      rcases List.mem_append.mp hm with hm | hm
      · revert hm; decide
      · rcases List.mem_cons.mp hm with he | hm
        · exact absurd he (by decide)
        · exact (hMallsafe ',' hm).1 rfl
  have hjoin : joinComma [str "cpu" ++ '=' :: C,
      str "memory" ++ '=' :: (Mm ++ str "Mi")]
      = (str "cpu" ++ '=' :: C) ++ ',' ::
        (str "memory" ++ '=' :: (Mm ++ str "Mi")) := rfl
  have hSne : joinComma [str "cpu" ++ '=' :: C,
      str "memory" ++ '=' :: (Mm ++ str "Mi")] ≠ [] := by
    rw [hjoin]
    simp
  have hhead : ∀ c, (joinComma [str "cpu" ++ '=' :: C,
      str "memory" ++ '=' :: (Mm ++ str "Mi")]).head? = some c → isWS c = false := by
    intro c hc
    rw [show (joinComma [str "cpu" ++ '=' :: C,
      str "memory" ++ '=' :: (Mm ++ str "Mi")]).head? = some 'c' from rfl] at hc
    have : c = 'c' := (Option.some_inj.mp hc).symm
    subst this
    decide
  have hlast : ∀ c, (joinComma [str "cpu" ++ '=' :: C,
      str "memory" ++ '=' :: (Mm ++ str "Mi")]).getLast? = some c →
      isWS c = false := by
    intro c hc
    rw [hjoin, getLast?_append_cons _ _ _ (by simp)] at hc
    rw [getLast?_append_cons _ _ _ hMne] at hc
    rw [getLast?_append_right Mm (str "Mi") (by decide)] at hc
    have : c = 'i' := by
      rw [show (str "Mi").getLast? = some 'i' from rfl] at hc
      exact (Option.some_inj.mp hc).symm
    subst this
    decide
  have hbuild : buildDict (splitOnChar ','
      (pyStrip (joinComma [str "cpu" ++ '=' :: C,
        str "memory" ++ '=' :: (Mm ++ str "Mi")]))) []
      = some [(str "cpu", C), (str "memory", Mm ++ str "Mi")] := by
    rw [pyStrip_eq_self _ hhead hlast]
    rw [splitOnChar_joinComma _ (by simp) hpartsnc]
    rw [buildDict_cons_some _ _ _ _ htok1]
    rw [buildDict_cons_some _ _ _ _ htok2]
    rfl
  have hmget : dictGet [(str "cpu", C), (str "memory", Mm ++ str "Mi")]
      (str "memory") = some (Mm ++ str "Mi") := by
    rw [dictGet_cons, if_neg (by decide), dictGet_cons, if_pos rfl]
  have hcget : dictGet [(str "cpu", C), (str "memory", Mm ++ str "Mi")]
      (str "cpu") = some C := by
    rw [dictGet_cons, if_pos rfl]
  have hgfold : gpuFold [(str "cpu", C), (str "memory", Mm ++ str "Mi")]
      (none, 0) = some (none, 0) := by
    rw [gpuFold_cons_no _ _ _ _ (by decide), gpuFold_cons_no _ _ _ _ (by decide)]
    rfl
  unfold NodeResource.resource_str_to_node_resource
  dsimp only
  rw [if_neg hSne]
  rw [hbuild]
  dsimp only
  rw [memorySlice_of_get hmget rfl]
  rw [hM, hcget]
  dsimp only [Option.getD]
  rw [hC, hgfold]

theorem reparse_three (C Mm G K : List Char) (rc rm : ℚ) (gn : ℤ)
    (hC : parseNum C = some rc)
    (hCsafe : ∀ c ∈ C, c ≠ ',' ∧ c ≠ '=' ∧ isWS c = false)
    (hM : parseNum Mm = some rm)
    (hMsafe : ∀ c ∈ Mm, c ≠ ',' ∧ c ≠ '=' ∧ isWS c = false)
    (hG : parseInt G = some gn)
    (hGsafe : ∀ c ∈ G, c ≠ ',' ∧ c ≠ '=' ∧ isWS c = false)
    (hGne : G ≠ [])
    (hKsub : containsSub (str "nvidia.com") K = true)
    (hKc : ',' ∉ K) (hKe : '=' ∉ K) :
    NodeResource.resource_str_to_node_resource
      (some (joinComma [str "cpu" ++ '=' :: C,
        str "memory" ++ '=' :: (Mm ++ str "Mi"), K ++ '=' :: G]))
      = some (NodeResource.new rc rm (some K) gn) := by
  have hKlen : 10 ≤ K.length := by
    have h1 := containsSub_length hKsub
    have h2 : (str "nvidia.com").length = 10 := by decide
    omega
  have hKcpu : ¬(str "cpu" = K) := by
    intro he
    rw [← he] at hKlen
    revert hKlen
    decide
  have hKmem : ¬(str "memory" = K) := by
    intro he
    rw [← he] at hKlen
    revert hKlen
    decide
  have hMne : Mm ++ str "Mi" ≠ [] := by simp [str]
  have hMallsafe : ∀ c ∈ Mm ++ str "Mi", c ≠ ',' ∧ c ≠ '=' ∧ isWS c = false := by
    intro c hc
    rcases List.mem_append.mp hc with hc | hc
    · exact hMsafe c hc
    · simp only [str] at hc
      rcases List.mem_cons.mp hc with rfl | hc
      · exact ⟨by decide, by decide, by decide⟩
      · simp only [List.mem_singleton] at hc
        subst hc
        exact ⟨by decide, by decide, by decide⟩
  have htok1 : tokenKV (str "cpu" ++ '=' :: C) = some (str "cpu", C) :=
    tokenKV_append _ _ (by decide) (fun hm => (hCsafe '=' hm).2.1 rfl)
  have htok2 : tokenKV (str "memory" ++ '=' :: (Mm ++ str "Mi"))
      = some (str "memory", Mm ++ str "Mi") :=
    tokenKV_append _ _ (by decide) (fun hm => (hMallsafe '=' hm).2.1 rfl)
  have htok3 : tokenKV (K ++ '=' :: G) = some (K, G) :=
    tokenKV_append _ _ hKe (fun hm => (hGsafe '=' hm).2.1 rfl)
  have hpartsnc : ∀ t ∈ [str "cpu" ++ '=' :: C,
      str "memory" ++ '=' :: (Mm ++ str "Mi"), K ++ '=' :: G], ',' ∉ t := by
    intro t ht
    rcases List.mem_cons.mp ht with rfl | ht
    · intro hm
      rcases List.mem_append.mp hm with hm | hm
      · revert hm; decide
      · rcases List.mem_cons.mp hm with he | hm
        · exact absurd he (by decide)
        · exact (hCsafe ',' hm).1 rfl
    rcases List.mem_cons.mp ht with rfl | ht
    · intro hm
      rcases List.mem_append.mp hm with hm | hm
      · revert hm; decide
      · rcases List.mem_cons.mp hm with he | hm
        · exact absurd he (by decide)
        · exact (hMallsafe ',' hm).1 rfl
    · simp only [List.mem_singleton] at ht
      subst ht
      intro hm
      rcases List.mem_append.mp hm with hm | hm
      · exact hKc hm
      · rcases List.mem_cons.mp hm with he | hm
        · exact absurd he (by decide)
        · exact (hGsafe ',' hm).1 rfl
  have hjoin : joinComma [str "cpu" ++ '=' :: C,
      str "memory" ++ '=' :: (Mm ++ str "Mi"), K ++ '=' :: G]
      = (str "cpu" ++ '=' :: C) ++ ',' ::
        ((str "memory" ++ '=' :: (Mm ++ str "Mi")) ++ ',' :: (K ++ '=' :: G)) := rfl
  have hSne : joinComma [str "cpu" ++ '=' :: C,
      str "memory" ++ '=' :: (Mm ++ str "Mi"), K ++ '=' :: G] ≠ [] := by
    rw [hjoin]
    simp
  have hhead : ∀ c, (joinComma [str "cpu" ++ '=' :: C,
      str "memory" ++ '=' :: (Mm ++ str "Mi"), K ++ '=' :: G]).head? = some c →
      isWS c = false := by
    intro c hc
    rw [show (joinComma [str "cpu" ++ '=' :: C,
      str "memory" ++ '=' :: (Mm ++ str "Mi"), K ++ '=' :: G]).head?
      = some 'c' from rfl] at hc
    have : c = 'c' := (Option.some_inj.mp hc).symm
    subst this
    decide
  have hlast : ∀ c, (joinComma [str "cpu" ++ '=' :: C,
      str "memory" ++ '=' :: (Mm ++ str "Mi"), K ++ '=' :: G]).getLast? = some c →
      isWS c = false := by
    intro c hc
    rw [hjoin, getLast?_append_cons _ _ _ (by simp)] at hc
    rw [getLast?_append_cons _ _ _ (by simp)] at hc
    rw [getLast?_append_cons _ _ _ hGne] at hc
    exact (hGsafe c (mem_of_getLast? hc)).2.2
  have hbuild : buildDict (splitOnChar ','
      (pyStrip (joinComma [str "cpu" ++ '=' :: C,
        str "memory" ++ '=' :: (Mm ++ str "Mi"), K ++ '=' :: G]))) []
      = some [(str "cpu", C), (str "memory", Mm ++ str "Mi"), (K, G)] := by
    rw [pyStrip_eq_self _ hhead hlast]
    rw [splitOnChar_joinComma _ (by simp) hpartsnc]
    rw [buildDict_cons_some _ _ _ _ htok1]
    rw [buildDict_cons_some _ _ _ _ htok2]
    rw [buildDict_cons_some _ _ _ _ htok3]
    show some _ = some _
    congr 1
    show dictInsert [(str "cpu", C), (str "memory", Mm ++ str "Mi")] K G = _
    rw [dictInsert_cons, if_neg hKcpu, dictInsert_cons, if_neg hKmem]
    rfl
  have hmget : dictGet [(str "cpu", C), (str "memory", Mm ++ str "Mi"), (K, G)]
      (str "memory") = some (Mm ++ str "Mi") := by
    rw [dictGet_cons, if_neg (by decide), dictGet_cons, if_pos rfl]
  have hcget : dictGet [(str "cpu", C), (str "memory", Mm ++ str "Mi"), (K, G)]
      (str "cpu") = some C := by
    rw [dictGet_cons, if_pos rfl]
  have hgfold : gpuFold [(str "cpu", C), (str "memory", Mm ++ str "Mi"), (K, G)]
      (none, 0) = some (some K, gn) := by
    rw [gpuFold_cons_no _ _ _ _ (by decide), gpuFold_cons_no _ _ _ _ (by decide)]
    rw [gpuFold_cons_yes _ _ _ _ gn hKsub hG]
    rfl
  unfold NodeResource.resource_str_to_node_resource
  dsimp only
  rw [if_neg hSne]
  rw [hbuild]
  dsimp only
  rw [memorySlice_of_get hmget rfl]
  rw [hM, hcget]
  dsimp only [Option.getD]
  rw [hC, hgfold]

theorem wire_roundtrip {s : List Char} {r : NodeResource}
    (h : NodeResource.resource_str_to_node_resource (some s) = some r) :
    ∃ r', NodeResource.resource_str_to_node_resource
        (some (dictToStr r.to_resource_dict)) = some r' ∧
      r'.cpu = r.cpu ∧ r'.memory = r.memory := by
  obtain ⟨hcpu, hmem, hgpu⟩ := parse_some_props h
  have hCp : parseNum (renderNum r.cpu) = some r.cpu := parseNum_renderNum _ hcpu
  have hMp : parseNum (renderNum r.memory) = some r.memory := parseNum_renderNum _ hmem
  by_cases hg : 0 < r.gpu_num
  · rcases hgpu with heq | ⟨K, hKt, hKsub, hKc, hKe⟩
    · exfalso
      have h0 : r.gpu_num = 0 := congrArg Prod.snd heq
      omega
    · have hKlen : 10 ≤ K.length := by
        have h1 := containsSub_length hKsub
        have h2 : (str "nvidia.com").length = 10 := by decide
        omega
      have hKcpu : ¬(str "cpu" = K) := by
        intro he
        rw [← he] at hKlen
        revert hKlen
        decide
      have hKmem : ¬(str "memory" = K) := by
        intro he
        rw [← he] at hKlen
        revert hKlen
        decide
      have hdict : r.to_resource_dict
          = [(str "cpu", renderNum r.cpu),
             (str "memory", renderNum r.memory ++ str "Mi"),
             (K, renderInt r.gpu_num)] := by
        unfold NodeResource.to_resource_dict
        rw [if_pos hg, hKt]
        show dictInsert [(str "cpu", renderNum r.cpu),
          (str "memory", renderNum r.memory ++ str "Mi")] K (renderInt r.gpu_num) = _
        rw [dictInsert_cons, if_neg hKcpu, dictInsert_cons, if_neg hKmem]
        rfl
      have hstr : dictToStr r.to_resource_dict
          = joinComma [str "cpu" ++ '=' :: renderNum r.cpu,
              str "memory" ++ '=' :: (renderNum r.memory ++ str "Mi"),
              K ++ '=' :: renderInt r.gpu_num] := by
        unfold dictToStr
        rw [hdict]
        rfl
      rw [hstr]
      exact ⟨_, reparse_three _ _ _ _ _ _ _ hCp (renderNum_safe _) hMp
        (renderNum_safe _) (parseInt_renderInt _) (renderInt_safe _)
        (renderInt_ne_nil _) hKsub hKc hKe, rfl, rfl⟩
  · have hdict : r.to_resource_dict
        = [(str "cpu", renderNum r.cpu),
           (str "memory", renderNum r.memory ++ str "Mi")] := by
      unfold NodeResource.to_resource_dict
      rw [if_neg hg]
      rfl
    have hstr : dictToStr r.to_resource_dict
        = joinComma [str "cpu" ++ '=' :: renderNum r.cpu,
            str "memory" ++ '=' :: (renderNum r.memory ++ str "Mi")] := by
      unfold dictToStr
      rw [hdict]
      rfl
    rw [hstr]
    exact ⟨_, reparse_two _ _ _ _ hCp (renderNum_safe _) hMp
      (renderNum_safe _), rfl, rfl⟩

theorem parse_single_memory (v suf : List Char) (n : ℚ)
    (hv : parseNum v = some n)
    (hsuf : suf = str "Ki" ∨ suf = str "Mi" ∨ suf = str "Gi") :
    NodeResource.resource_str_to_node_resource
      (some (str "memory" ++ '=' :: (v ++ suf)))
      = some (NodeResource.new 0 n none 0) := by
  have hvsafe := parseNum_some_safe hv
  have hsufne : suf ≠ [] := by rcases hsuf with rfl | rfl | rfl <;> decide
  have hsuf2 : suf.length = 2 := by rcases hsuf with rfl | rfl | rfl <;> decide
  have hsufsafe : ∀ c ∈ suf, c ≠ ',' ∧ c ≠ '=' ∧ isWS c = false := by
    rcases hsuf with rfl | rfl | rfl <;> decide
  have hvalne : v ++ suf ≠ [] := by simp [hsufne]
  have htok : tokenKV (str "memory" ++ '=' :: (v ++ suf))
      = some (str "memory", v ++ suf) :=
    tokenKV_append _ _ (by decide) (by
      intro hm
      rcases List.mem_append.mp hm with hm | hm
      · exact (hvsafe '=' hm).2.1 rfl
      · exact (hsufsafe '=' hm).2.1 rfl)
  have hnc : ',' ∉ (str "memory" ++ '=' :: (v ++ suf)) := by
    intro hm
    rcases List.mem_append.mp hm with hm | hm
    · revert hm; decide
    · rcases List.mem_cons.mp hm with he | hm
      · exact absurd he (by decide)
      · rcases List.mem_append.mp hm with hm | hm
        · exact (hvsafe ',' hm).1 rfl
        · exact (hsufsafe ',' hm).1 rfl
  have hSne : str "memory" ++ '=' :: (v ++ suf) ≠ [] := by simp
  have hhead : ∀ c, (str "memory" ++ '=' :: (v ++ suf)).head? = some c →
      isWS c = false := by
    intro c hc
    rw [show (str "memory" ++ '=' :: (v ++ suf)).head? = some 'm' from rfl] at hc
    have hcm : c = 'm' := (Option.some_inj.mp hc).symm
    subst hcm
    decide
  have hlast : ∀ c, (str "memory" ++ '=' :: (v ++ suf)).getLast? = some c →
      isWS c = false := by
    intro c hc
    rw [getLast?_append_cons _ _ _ hvalne] at hc
    rw [getLast?_append_right v suf hsufne] at hc
    exact (hsufsafe c (mem_of_getLast? hc)).2.2
  have hstrip : pyStrip (str "memory" ++ '=' :: (v ++ suf))
      = str "memory" ++ '=' :: (v ++ suf) := pyStrip_eq_self _ hhead hlast
  have hsplit : splitOnChar ',' (str "memory" ++ '=' :: (v ++ suf))
      = [str "memory" ++ '=' :: (v ++ suf)] := splitOnChar_no_sep _ _ hnc
  have hbuild : buildDict [str "memory" ++ '=' :: (v ++ suf)] []
      = some [(str "memory", v ++ suf)] := by
    rw [buildDict_cons_some _ _ _ _ htok]
    rfl
  have hmget : dictGet [(str "memory", v ++ suf)] (str "memory")
      = some (v ++ suf) := by
    rw [dictGet_cons, if_pos rfl]
  have hpfx : memorySlice [(str "memory", v ++ suf)] = v := by
    unfold memorySlice memoryValue
    rw [hmget]
    show (v ++ suf).take ((v ++ suf).length - 2) = v
    have hlen : (v ++ suf).length - 2 = v.length := by
      simp [List.length_append, hsuf2]
    rw [hlen]
    exact List.take_left v suf
  have hcget : dictGet [(str "memory", v ++ suf)] (str "cpu") = none := by
    rw [dictGet_cons, if_neg (by decide)]
    rfl
  have hzero : parseNum (str "0") = some 0 := by decide
  have hgf : gpuFold [(str "memory", v ++ suf)] (none, 0) = some (none, 0) := by
    rw [gpuFold_cons_no _ _ _ _ (by decide)]
    rfl
  unfold NodeResource.resource_str_to_node_resource
  dsimp only
  rw [if_neg hSne, hstrip, hsplit, hbuild]
  dsimp only
  rw [hpfx, hv, hcget]
  dsimp only [Option.getD]
  rw [hzero, hgf]

theorem convert_of_parts (s suf : List Char) (h2 : suf.length = 2) (n : ℤ)
    (h : parseInt s = some n) :
    NodeResource.convert_memory_to_mb (s ++ suf)
      = some (if suf = str "Gi" then n * 1024
          else if suf = str "Ki" then Int.tdiv n 1024 else n) := by
  have hlen : (s ++ suf).length - 2 = s.length := by
    simp [List.length_append, h2]
  unfold NodeResource.convert_memory_to_mb
  rw [hlen, List.take_left s suf, List.drop_left s suf, h]
  rfl

/-! ### Claim theorems -/

/-- C1: `is_unrecoverable_failure` returns true if and only if the relaunch
budget is exhausted (`relaunch_count ≥ max_relaunch_count`), or the exit
reason is `FATAL_ERROR`, or the observed memory reaches the configured OOM
ceiling; in particular with `relaunch_count = max_relaunch_count` (including
the degenerate `max_relaunch_count = 0`) it returns true regardless of all
other fields. -/
theorem c1_is_unrecoverable_characterization (maxMemory : ℚ) (n : Node) :
    (n.is_unrecoverable_failure maxMemory = true ↔
      (n.relaunch_count ≥ n.max_relaunch_count ∨
       n.exit_reason = some NodeExitReason.FATAL_ERROR ∨
       n.used_resource.memory ≥ maxMemory)) ∧
    (n.relaunch_count = n.max_relaunch_count →
      n.is_unrecoverable_failure maxMemory = true) := by
  constructor
  · unfold Node.is_unrecoverable_failure
    split
    · rename_i hcond
      simp [hcond]
    · rename_i hcond
      simp [hcond]
  · intro heq
    unfold Node.is_unrecoverable_failure
    rw [if_pos (Or.inl (ge_of_eq heq))]

/-- C1 witness: a freshly constructed node with
`relaunch_count = max_relaunch_count = 0` is immediately unrecoverable. -/
theorem c1_is_unrecoverable_characterization_witness :
    (Node.new (str "worker") 0 (NodeResource.new 1 100 none 0) none
      NodeStatus.INITIAL none none 0 false 0 true none
      7).is_unrecoverable_failure 1000 = true :=
  (c1_is_unrecoverable_characterization 1000
    (Node.new (str "worker") 0 (NodeResource.new 1 100 none 0) none
      NodeStatus.INITIAL none none 0 false 0 true none 7)).2 rfl

/-- C2: `get_relaunch_node_info(new_id)` produces a successor with
`id = new_id`, `name = None`, `status = INITIAL`, `start_time = None`,
`is_released = false` and `relaunchable = true`, while role, task index,
criticality, relaunch counters and configured resource are taken over
unchanged; the relaunch count is not incremented, and the embedding is a
pure function of the original node, which is left untouched. -/
theorem c2_relaunch_successor (n : Node) (newId : ℤ) :
    (n.get_relaunch_node_info newId).id = newId ∧
    (n.get_relaunch_node_info newId).name = none ∧
    (n.get_relaunch_node_info newId).status = NodeStatus.INITIAL ∧
    (n.get_relaunch_node_info newId).start_time = none ∧
    (n.get_relaunch_node_info newId).is_released = false ∧
    (n.get_relaunch_node_info newId).relaunchable = true ∧
    (n.get_relaunch_node_info newId).type = n.type ∧
    (n.get_relaunch_node_info newId).task_index = n.task_index ∧
    (n.get_relaunch_node_info newId).critical = n.critical ∧
    (n.get_relaunch_node_info newId).relaunch_count = n.relaunch_count ∧
    (n.get_relaunch_node_info newId).max_relaunch_count = n.max_relaunch_count ∧
    (n.get_relaunch_node_info newId).config_resource = n.config_resource :=
  ⟨rfl, rfl, rfl, rfl, rfl, rfl, rfl, rfl, rfl, rfl, rfl, rfl⟩

/-- C3 counterexample: a released node can still be driven to `RUNNING` —
`update_status` overwrites the status unconditionally and never consults
`is_released`, so the claimed invariant is not preserved by every operation. -/
theorem c3_released_running_counterexample :
    (⟨str "worker", 1, none, NodeStatus.FAILED, none, 1, 0, false, 1, true,
      none, 0, 0, false, true, none, NodeResource.new 1 1 none 0,
      NodeResource.new 0 0 none 0⟩ : Node).is_released = true ∧
    ((⟨str "worker", 1, none, NodeStatus.FAILED, none, 1, 0, false, 1, true,
      none, 0, 0, false, true, none, NodeResource.new 1 1 none 0,
      NodeResource.new 0 0 none 0⟩ : Node).update_status
        (some NodeStatus.RUNNING)).is_released = true ∧
    ((⟨str "worker", 1, none, NodeStatus.FAILED, none, 1, 0, false, 1, true,
      none, 0, 0, false, true, none, NodeResource.new 1 1 none 0,
      NodeResource.new 0 0 none 0⟩ : Node).update_status
        (some NodeStatus.RUNNING)).status = NodeStatus.RUNNING :=
  ⟨rfl, rfl, rfl⟩

/-- C3 (amended): no `Node` operation changes `is_released`, and the status
can become `RUNNING` only through `update_status (RUNNING)` — which, however,
works on released nodes too, so the released-never-RUNNING invariant must be
maintained by the policy engine, not by the `Node` class itself. -/
theorem c3_released_amended (n : Node) (op : NodeOp) :
    (applyOp op n).is_released = n.is_released ∧
    ((applyOp op n).status = NodeStatus.RUNNING →
      n.status = NodeStatus.RUNNING ∨
      op = NodeOp.updateStatus (some NodeStatus.RUNNING)) := by
  cases op with
  | incRelaunch => exact ⟨rfl, fun h => Or.inl h⟩
  | updateInfo a b c => exact ⟨rfl, fun h => Or.inl h⟩
  | updateStatus s =>
      refine ⟨rfl, ?_⟩
      intro h
      cases s with
      | none => exact Or.inl h
      | some st =>
          right
          have hst : st = NodeStatus.RUNNING := h
          rw [hst]
  | updateUsage cpu mem => exact ⟨rfl, fun h => Or.inl h⟩
  | setExitReason rr => exact ⟨rfl, fun h => Or.inl h⟩

/-- C3 amended witness: instantiated on a running node and the
relaunch-count increment, whose status can only have been `RUNNING` before. -/
theorem c3_released_amended_witness :
    (Node.new (str "w") 0 (NodeResource.new 0 0 none 0) none NodeStatus.RUNNING
      none none 0 false 0 true none 0).status = NodeStatus.RUNNING ∨
    NodeOp.incRelaunch = NodeOp.updateStatus (some NodeStatus.RUNNING) :=
  (c3_released_amended
    (Node.new (str "w") 0 (NodeResource.new 0 0 none 0) none NodeStatus.RUNNING
      none none 0 false 0 true none 0) NodeOp.incRelaunch).2 rfl

/-- C9: every freshly constructed node has a zero observed resource,
`is_released = false`, `exit_reason = None`, `is_recovered_oom = false` and
equal creation and finish timestamps, regardless of the constructor
arguments; hence, right after construction, unrecoverability is decided
solely by `relaunch_count` versus `max_relaunch_count` whenever the OOM
ceiling is positive. -/
theorem c9_fresh_node_state (node_type : List Char) (node_id : ℤ)
    (config : NodeResource) (name : Option (List Char)) (status : NodeStatus)
    (start_time : Option ℕ) (task_index : Option ℤ) (relaunch_count : ℤ)
    (critical : Bool) (max_relaunch_count : ℤ) (relaunchable : Bool)
    (service_addr : Option (List Char)) (now : ℕ) (maxMemory : ℚ) :
    (Node.new node_type node_id config name status start_time task_index
      relaunch_count critical max_relaunch_count relaunchable service_addr
      now).used_resource = NodeResource.new 0 0 none 0 ∧
    (Node.new node_type node_id config name status start_time task_index
      relaunch_count critical max_relaunch_count relaunchable service_addr
      now).is_released = false ∧
    (Node.new node_type node_id config name status start_time task_index
      relaunch_count critical max_relaunch_count relaunchable service_addr
      now).exit_reason = none ∧
    (Node.new node_type node_id config name status start_time task_index
      relaunch_count critical max_relaunch_count relaunchable service_addr
      now).is_recovered_oom = false ∧
    (Node.new node_type node_id config name status start_time task_index
      relaunch_count critical max_relaunch_count relaunchable service_addr
      now).create_time =
      (Node.new node_type node_id config name status start_time task_index
        relaunch_count critical max_relaunch_count relaunchable service_addr
        now).finish_time ∧
    (0 < maxMemory →
      ((Node.new node_type node_id config name status start_time task_index
        relaunch_count critical max_relaunch_count relaunchable service_addr
        now).is_unrecoverable_failure maxMemory = true ↔
        relaunch_count ≥ max_relaunch_count)) := by
  refine ⟨rfl, rfl, rfl, rfl, rfl, ?_⟩
  intro hpos
  show (if relaunch_count ≥ max_relaunch_count ∨
      (none : Option NodeExitReason) = some NodeExitReason.FATAL_ERROR ∨
      (NodeResource.new 0 0 none 0).memory ≥ maxMemory
    then true else false) = true ↔ relaunch_count ≥ max_relaunch_count
  by_cases hrc : relaunch_count ≥ max_relaunch_count
  · rw [if_pos (Or.inl hrc)]
    simp [hrc]
  · rw [if_neg ?hneg]
    case hneg =>
      intro hor
      rcases hor with h | h | h
      · exact hrc h
      · simp at h
      · have hmem0 : (NodeResource.new 0 0 none 0).memory = 0 := rfl
        rw [hmem0] at h
        linarith
    simp [hrc]

/-- C9 witness: concrete instantiation with a positive OOM ceiling. -/
theorem c9_fresh_node_state_witness :
    (Node.new (str "ps") 3 (NodeResource.new 2 64 none 0) none
      NodeStatus.PENDING none (some 9) 1 true 2 false none
      11).is_unrecoverable_failure 500 = true ↔ (1 : ℤ) ≥ 2 :=
  (c9_fresh_node_state (str "ps") 3 (NodeResource.new 2 64 none 0) none
    NodeStatus.PENDING none (some 9) 1 true 2 false none 11
    500).2.2.2.2.2 (by norm_num)

/-- C4 counterexample: an unrecognized unit suffix (`Ti`, not one of
`Ki|Mi|Gi`) does not raise any error — `convert_memory_to_mb` silently treats
it as `Mi` and returns the numeric prefix unchanged, contradicting the claim
that a malformed suffix raises `MalformedResourceError`. -/
theorem c4_unknown_suffix_counterexample :
    NodeResource.convert_memory_to_mb (str "5Ti") = some 5 ∧
    str "Ti" ≠ str "Gi" ∧ str "Ti" ≠ str "Ki" ∧ str "Ti" ≠ str "Mi" := by
  decide

/-- C4 (amended): there is no dedicated `MalformedResourceError`;
`convert_memory_to_mb` fails (an uncaught `ValueError`, modelled as `none`)
exactly when the prefix obtained by slicing off the final two characters is
not an integer literal, while an unrecognized suffix is silently treated as
`Mi`; empty or `None` input and absent `cpu`/`memory` keys are not errors and
yield zero resources. -/
theorem c4_error_behaviour :
    (∀ m : List Char, NodeResource.convert_memory_to_mb m = none ↔
      parseInt (m.take (m.length - 2)) = none) ∧
    NodeResource.resource_str_to_node_resource none
      = some (NodeResource.new 0 0 none 0) ∧
    NodeResource.resource_str_to_node_resource (some [])
      = some (NodeResource.new 0 0 none 0) ∧
    NodeResource.resource_str_to_node_resource (some (str "cpu=4"))
      = some (NodeResource.new 4 0 none 0) ∧
    NodeResource.resource_str_to_node_resource (some (str "memory=5Mi"))
      = some (NodeResource.new 0 5 none 0) := by
  refine ⟨?_, rfl, by decide, by decide, by decide⟩
  intro m
  unfold NodeResource.convert_memory_to_mb
  exact Option.map_eq_none'

/-- C5 counterexample: `parse("memory=1Gi")` yields `memoryMB = 1`, not the
claimed `1024` — `resource_str_to_node_resource` strips the suffix without
converting the unit. -/
theorem c5_gi_counterexample :
    NodeResource.resource_str_to_node_resource (some (str "memory=1Gi"))
      = some (NodeResource.new 0 1 none 0) ∧ (1 : ℚ) ≠ 1024 := by
  refine ⟨by decide, by norm_num⟩

/-- C5 (amended): for every memory literal `memory=<v><suffix>` with suffix
in `{Ki, Mi, Gi}`, parse slices off the two-character suffix and uses the
numeric prefix directly as memoryMB with no unit conversion — so the value is
`v` for all three suffixes (correct only for `Mi`); unit conversion lives
solely in `convert_memory_to_mb`, which parse never calls. -/
theorem c5_parse_memory_no_conversion (v suf : List Char) (n : ℚ)
    (hsuf : suf = str "Ki" ∨ suf = str "Mi" ∨ suf = str "Gi")
    (hv : parseNum v = some n) :
    NodeResource.resource_str_to_node_resource
      (some (str "memory" ++ '=' :: (v ++ suf)))
      = some (NodeResource.new 0 n none 0) :=
  parse_single_memory v suf n hv hsuf

/-- C5 witness: `memory=1Gi` parses to memoryMB 1. -/
theorem c5_parse_memory_no_conversion_witness :
    NodeResource.resource_str_to_node_resource
      (some (str "memory" ++ '=' :: (str "1" ++ str "Gi")))
      = some (NodeResource.new 0 1 none 0) :=
  c5_parse_memory_no_conversion (str "1") (str "Gi") 1
    (Or.inr (Or.inr rfl)) (by decide)

/-- C6: `convert_memory_to_mb` maps `"2Gi"` to 2048, `"1024Ki"` to 1 and
`"5Mi"` to 5; in general an integer prefix `n` is multiplied by 1024 under
`Gi`, divided by 1024 truncating toward zero under `Ki` (Python
`int(value / 1024)`), and returned unchanged under `Mi`. -/
theorem c6_convert_memory :
    NodeResource.convert_memory_to_mb (str "2Gi") = some 2048 ∧
    NodeResource.convert_memory_to_mb (str "1024Ki") = some 1 ∧
    NodeResource.convert_memory_to_mb (str "5Mi") = some 5 ∧
    (∀ (s : List Char) (n : ℤ), parseInt s = some n →
      NodeResource.convert_memory_to_mb (s ++ str "Gi") = some (n * 1024) ∧
      NodeResource.convert_memory_to_mb (s ++ str "Ki")
        = some (Int.tdiv n 1024) ∧
      NodeResource.convert_memory_to_mb (s ++ str "Mi") = some n) := by
  refine ⟨by decide, by decide, by decide, ?_⟩
  intro s n h
  refine ⟨?_, ?_, ?_⟩
  · rw [convert_of_parts s (str "Gi") (by decide) n h, if_pos rfl]
  · rw [convert_of_parts s (str "Ki") (by decide) n h, if_neg (by decide),
      if_pos rfl]
  · rw [convert_of_parts s (str "Mi") (by decide) n h, if_neg (by decide),
      if_neg (by decide)]

/-- C6 witness: the general rule applied to the prefix `"7"`. -/
theorem c6_convert_memory_witness :
    NodeResource.convert_memory_to_mb (str "7" ++ str "Gi")
      = some (7 * 1024) :=
  (c6_convert_memory.2.2.2 (str "7") 7 (by decide)).1

/-- C7: for every valid resource string `s`, serializing `parse(s)` with
`to_resource_dict` (rendered back to `key=value` text) and re-parsing yields
the same numeric cpu and memoryMB values, memory staying in the canonical MB
unit. -/
theorem c7_wire_roundtrip (s : List Char) (r : NodeResource)
    (h : NodeResource.resource_str_to_node_resource (some s) = some r) :
    ∃ r', NodeResource.resource_str_to_node_resource
        (some (dictToStr r.to_resource_dict)) = some r' ∧
      r'.cpu = r.cpu ∧ r'.memory = r.memory :=
  wire_roundtrip h

/-- C7 witness: round trip of `"cpu=1,memory=2Mi"`. -/
theorem c7_wire_roundtrip_witness :
    ∃ r', NodeResource.resource_str_to_node_resource
        (some (dictToStr (NodeResource.new 1 2 none 0).to_resource_dict))
        = some r' ∧
      r'.cpu = (NodeResource.new 1 2 none 0).cpu ∧
      r'.memory = (NodeResource.new 1 2 none 0).memory :=
  c7_wire_roundtrip (str "cpu=1,memory=2Mi") (NodeResource.new 1 2 none 0)
    (by decide)

/-- C8 counterexample: neither the constructor nor parse validates ranges —
`parse("cpu=-1")` produces an instance with negative cpuCores. -/
theorem c8_negative_cpu_counterexample :
    NodeResource.resource_str_to_node_resource (some (str "cpu=-1"))
      = some (NodeResource.new (-1) 0 none 0) ∧
    (NodeResource.new (-1) 0 none 0).cpu < 0 := by
  refine ⟨by decide, by norm_num [NodeResource.new]⟩

/-- C8 (amended): the claimed non-negativity invariants do not hold — the
constructor performs no validation and parse accepts negative literals — but
the accelerator clause does hold for parse results: whenever
`acceleratorCount > 0` the `acceleratorType` is set, contains the substring
`nvidia.com` and is in particular non-empty. -/
theorem c8_gpu_type_nonempty (s : Option (List Char)) (r : NodeResource)
    (h : NodeResource.resource_str_to_node_resource s = some r)
    (hg : 0 < r.gpu_num) :
    ∃ K, r.gpu_type = some K ∧
      containsSub (str "nvidia.com") K = true ∧ K ≠ [] := by
  cases s with
  | none =>
      have hr : r = NodeResource.new 0 0 none 0 := (Option.some_inj.mp h).symm
      subst hr
      exact absurd hg (by norm_num [NodeResource.new])
  | some s' =>
      obtain ⟨_, _, hgpu⟩ := parse_some_props h
      rcases hgpu with heq | ⟨K, hKt, hKsub, _, _⟩
      · exfalso
        have h0 : r.gpu_num = 0 := congrArg Prod.snd heq
        omega
      · refine ⟨K, hKt, hKsub, ?_⟩
        intro hnil
        have hlen := containsSub_length hKsub
        rw [hnil] at hlen
        revert hlen
        decide

/-- C8 amended witness: instantiated at `"nvidia.com/gpu=2"`. -/
theorem c8_gpu_type_nonempty_witness :
    ∃ K, (NodeResource.new 0 0 (some (str "nvidia.com/gpu")) 2).gpu_type
        = some K ∧
      containsSub (str "nvidia.com") K = true ∧ K ≠ [] :=
  c8_gpu_type_nonempty (some (str "nvidia.com/gpu=2"))
    (NodeResource.new 0 0 (some (str "nvidia.com/gpu")) 2)
    (by decide) (by norm_num [NodeResource.new])

/-- C10 counterexample: with repeated accelerator keys the *token-order-last*
key does not determine the result.  In
`"nvidia.com/a=1,nvidia.com/b=2,nvidia.com/a=3"` the last accelerator token
is `nvidia.com/a=3`, yet parse returns type `nvidia.com/b` with count 2: the
dict keeps each key at its first-occurrence position (with its last value),
and the loop takes the last key in that insertion order. -/
theorem c10_last_token_counterexample :
    NodeResource.resource_str_to_node_resource
      (some (str "nvidia.com/a=1,nvidia.com/b=2,nvidia.com/a=3"))
      = some (NodeResource.new 0 0 (some (str "nvidia.com/b")) 2) ∧
    str "nvidia.com/b" ≠ str "nvidia.com/a" ∧ (2 : ℤ) ≠ 3 := by
  decide

/-- C10 (amended): a key counts as an accelerator identifier exactly when it
contains the substring `nvidia.com`; if no key of the token dict contains it,
the result has `gpu_type = None` and `gpu_num = 0`; and when several entries
match, the *last matching entry of the insertion-ordered dict* (first
occurrence order, carrying that key's last assigned value) determines both
`gpu_type` and `gpu_num` — not the last matching token. -/
theorem c10_accelerator_key_selection :
    (∀ (s : List Char) (r : NodeResource) (d : List (List Char × List Char)),
      NodeResource.resource_str_to_node_resource (some s) = some r →
      buildDict (splitOnChar ',' (pyStrip s)) [] = some d →
      (∀ e ∈ d, containsSub (str "nvidia.com") e.1 = false) →
      r.gpu_type = none ∧ r.gpu_num = 0) ∧
    (∀ (s : List Char) (r : NodeResource)
      (d₁ d₂ : List (List Char × List Char)) (K V : List Char),
      NodeResource.resource_str_to_node_resource (some s) = some r →
      buildDict (splitOnChar ',' (pyStrip s)) [] = some (d₁ ++ (K, V) :: d₂) →
      containsSub (str "nvidia.com") K = true →
      (∀ e ∈ d₂, containsSub (str "nvidia.com") e.1 = false) →
      r.gpu_type = some K ∧ parseInt V = some r.gpu_num) := by
  constructor
  · intro s r d hp hd hnone
    have hs : s ≠ [] := by
      intro he
      subst he
      rw [show buildDict (splitOnChar ',' (pyStrip [])) [] = none from rfl] at hd
      exact absurd hd (by simp)
    obtain ⟨d', memory, cpu, g, hb, hm, hc, hg, hr⟩ := parse_some_elim hs hp
    rw [hb] at hd
    obtain rfl := Option.some_inj.mp hd
    rw [gpuFold_no_match d' _ hnone] at hg
    have hge := Option.some_inj.mp hg
    subst hr
    constructor
    · show g.1 = none
      rw [← hge]
    · show g.2 = 0
      rw [← hge]
  · intro s r d₁ d₂ K V hp hd hK hd₂
    have hs : s ≠ [] := by
      intro he
      subst he
      rw [show buildDict (splitOnChar ',' (pyStrip [])) [] = none from rfl] at hd
      exact absurd hd (by simp)
    obtain ⟨d', memory, cpu, g, hb, hm, hc, hg, hr⟩ := parse_some_elim hs hp
    rw [hb] at hd
    obtain rfl := Option.some_inj.mp hd
    have hres := gpuFold_append_last d₁ d₂ K V g hK hd₂ (none, 0) hg
    subst hr
    exact ⟨hres.1, hres.2⟩

/-- C10 amended witness: instantiated on `"cpu=1"`, whose only key is not an
accelerator identifier. -/
theorem c10_accelerator_key_selection_witness :
    (NodeResource.new 1 0 none 0).gpu_type = none ∧
    (NodeResource.new 1 0 none 0).gpu_num = 0 :=
  c10_accelerator_key_selection.1 (str "cpu=1") (NodeResource.new 1 0 none 0)
    [(str "cpu", str "1")] (by decide) (by decide) (by decide)
